import Mathlib

set_option autoImplicit false

namespace I18n

/-! Shallow embedding of the i18n translation engine of this repository
    (src/i18n/translator.go, src/i18n/universalTranslator.go and the
    import/export bridge in src/unnamed/part_000, package i18n).

    Modelling choices:
    * Go strings are lists of characters (`Str`); all texts involved are
      ASCII, where Go byte offsets coincide with list indices.
    * Go maps with interface-typed keys are association lists over `GoValue`;
      Go map insertion overwrites the existing binding in place.
    * The external locale capability provider (go-playground/locales) is the
      `Locale` structure; its rule-selection functions take opaque numeric
      arguments (the float64 `num` is an opaque `Int`, `digits` a `Nat`) and
      are completely unconstrained, exactly as the engine treats them.
    * Fallible Go functions return their mutated receiver together with an
      `Option Err` (`none` = Go `nil` error).  Render operations return an
      `RResult`, whose `panicked` constructor models a Go runtime panic
      (out-of-range index, invalid slice bounds, nil dereference). -/

abbrev Str := List Char

/-- strings.Count of a single-character substring. -/
def countChar (s : Str) (c : Char) : Nat := s.count c

/-- Boolean prefix test: `hasPref pat s` iff `pat` is a prefix of `s`. -/
def hasPref : Str → Str → Bool
  | [], _ => true
  | _ :: _, [] => false
  | a :: as, b :: bs => a == b && hasPref as bs

/-- strings.Index: index of the first occurrence of `pat` in `s`,
    `none` for Go's -1. -/
def strIndex : Str → Str → Option Nat
  | [], pat => if hasPref pat [] then some 0 else none
  | c :: s, pat => if hasPref pat (c :: s) then some 0 else (strIndex s pat).map (· + 1)

/-- Go slice expression text[a:b] (valid when a ≤ b ≤ len). -/
def slice (s : Str) (a b : Nat) : Str := (s.take b).drop a

/-- The decimal digit characters used by strconv.Itoa. -/
def digitChar : Nat → Char
  | 0 => '0'
  | 1 => '1'
  | 2 => '2'
  | 3 => '3'
  | 4 => '4'
  | 5 => '5'
  | 6 => '6'
  | 7 => '7'
  | 8 => '8'
  | _ => '9'

/-- Fuel-driven decimal printer (kernel-reducible model of strconv.Itoa). -/
def natDigitsAux : Nat → Nat → List Char
  | 0, _ => []
  | fuel + 1, n =>
    if n < 10 then [digitChar n]
    else natDigitsAux fuel (n / 10) ++ [digitChar (n % 10)]

/-- Decimal representation of a natural number (strconv.Itoa on the
    non-negative loop counters of Add). -/
def natDigits (n : Nat) : List Char := natDigitsAux (n + 1) n

/-- The literal placeholder string of index i, Go: "{" + strconv.Itoa(i) + "}". -/
def placeholder (i : Nat) : Str := '{' :: natDigits i ++ ['}']

/-- The constant paramZero = "{0}" of translator.go. -/
def paramZero : Str := ['{', '0', '}']

/-- The constant paramOne = "{1}" of translator.go. -/
def paramOne : Str := ['{', '1', '}']

/-- locales.PluralRule (PluralRuleUnknown, Zero, One, Two, Few, Many, Other). -/
inductive PluralRule where
  | unknown
  | zero
  | one
  | two
  | few
  | many
  | other
  deriving DecidableEq

/-- The enumeration order of the rules, matching the Go constants 0..6
    (used by the index loop of exportPlurals). -/
def ruleOrder : List PluralRule :=
  [.unknown, .zero, .one, .two, .few, .many, .other]

/-- The six named rules that have a field in the serialized record format. -/
def sixRules : List PluralRule := [.zero, .one, .two, .few, .many, .other]

/-- strings.ToLower(rule.String()) as used by exportPlurals. -/
def PluralRule.lowerName : PluralRule → Str
  | .unknown => "unknown".data
  | .zero => "zero".data
  | .one => "one".data
  | .two => "two".data
  | .few => "few".data
  | .many => "many".data
  | .other => "other".data

/-- transText: a compiled template (text plus splice offsets). -/
structure TransText where
  text : Str
  indexes : List Nat
  deriving DecidableEq

/-- A plural-rule-indexed slot array (Go: []*transText of length 7,
    indexed by the rule's ordinal). -/
def Slots : Type := PluralRule → Option TransText

/-- The all-nil array created by make([]*transText, 7). -/
def Slots.empty : Slots := fun _ => none

/-- In-place write tarr[rule] = v. -/
def Slots.set (a : Slots) (r : PluralRule) (v : Option TransText) : Slots :=
  fun r' => if r' = r then v else a r'

/-- An interface-typed value used as a translation key: a string or some
    opaque non-string value (the tag distinguishes different ones). -/
inductive GoValue where
  | str (s : Str)
  | nonString (tag : Nat)
  deriving DecidableEq

/-- Association-list lookup (Go map read). -/
def alLookup {K V : Type} [DecidableEq K] : List (K × V) → K → Option V
  | [], _ => none
  | (k', v) :: rest, k => if k' = k then some v else alLookup rest k

/-- Association-list insert, overwriting in place (Go map write). -/
def alInsert {K V : Type} [DecidableEq K] : List (K × V) → K → V → List (K × V)
  | [], k, v => [(k, v)]
  | (k', v') :: rest, k, v =>
    if k' = k then (k, v) :: rest else (k', v') :: alInsert rest k v

/-- The external locale capability provider (locales.Translator): the
    per-category valid-rule lists and the rule-selection functions.  The
    numeric arguments are opaque pass-throughs. -/
structure Locale where
  name : Str
  pluralsCardinal : List PluralRule
  pluralsOrdinal : List PluralRule
  pluralsRange : List PluralRule
  cardinalPluralRule : Int → Nat → PluralRule
  ordinalPluralRule : Int → Nat → PluralRule
  rangePluralRule : Int → Nat → Int → Nat → PluralRule

/-- Payload of the Text field of the category-specific plural errors
    (the Go code stores a fmt.Sprintf message; modelled by its structured
    content, which distinguishes the two message shapes). -/
inductive PluralErrText where
  | ruleNotExist (rule : PluralRule) (locale : Str) (key : Str) (text : Str)
  | paramNotFound (param : Str) (locale : Str) (key : Str) (text : Str)
  deriving DecidableEq

/-- The error taxonomy of src/i18n/errors.go (fields preserved). -/
inductive Err where
  | keyIsNotString
  | unknownTranslation (key : Str)
  | existingTranslator (locale : Str)
  | conflictingTranslation (locale : Str) (key : Str) (rule : PluralRule) (text : Str)
  | rangeTranslation (t : PluralErrText)
  | ordinalTranslation (t : PluralErrText)
  | cardinalTranslation (t : PluralErrText)
  | missingPluralTranslation (locale : Str) (key : Str) (rule : PluralRule)
      (translationType : Str)
  | missingBrace (locale : Str) (key : GoValue) (text : Str)
  | badParamSyntax (locale : Str) (param : Str) (key : Str) (text : Str)
  | localeNotRegistered (locale : Str)
  | invalidRuleType (ruleType : Str)
  deriving DecidableEq

instance {ε α : Type} [DecidableEq ε] [DecidableEq α] : DecidableEq (Except ε α) :=
  fun a b =>
    match a, b with
    | .ok x, .ok y =>
      if h : x = y then isTrue (congrArg Except.ok h)
      else isFalse (fun hx => h (by cases hx; rfl))
    | .error x, .error y =>
      if h : x = y then isTrue (congrArg Except.error h)
      else isFalse (fun hx => h (by cases hx; rfl))
    | .ok _, .error _ => isFalse (fun hx => Except.noConfusion hx)
    | .error _, .ok _ => isFalse (fun hx => Except.noConfusion hx)

/-- The per-locale translation store (struct translator). -/
structure Translator where
  loc : Locale
  translations : List (GoValue × TransText)
  cardinalTanslations : List (GoValue × Slots)
  ordinalTanslations : List (GoValue × Slots)
  rangeTanslations : List (GoValue × Slots)

/-- newTranslator. -/
def newTranslator (loc : Locale) : Translator :=
  { loc := loc
    translations := []
    cardinalTanslations := []
    ordinalTanslations := []
    rangeTanslations := [] }

/-- The placeholder-index loop of Add (lines 77-86 of translator.go):
    for each i it locates "{" + Itoa(i) + "}" in the text and appends the
    offset pair, failing with ErrBadParamSyntax on the first miss. -/
def plainLoop (text locName key : Str) : List Nat → Except Err (List Nat)
  | [] => .ok []
  | i :: rest =>
    let s := placeholder i
    match strIndex text s with
    | none => .error (.badParamSyntax locName s key text)
    | some idx =>
      match plainLoop text locName key rest with
      | .error e => .error e
      | .ok l => .ok (idx :: (idx + s.length) :: l)

/-- Add: plain translation (translator.go lines 54-91). -/
def Translator.Add (t : Translator) (k : GoValue) (text : Str) (override : Bool) :
    Translator × Option Err :=
  match k with
  | .nonString _ => (t, some .keyIsNotString)
  | .str key =>
    if (alLookup t.translations (.str key)).isSome && !override then
      (t, some (.conflictingTranslation t.loc.name key .unknown text))
    else
      let lb := countChar text '{'
      let rb := countChar text '}'
      if lb ≠ rb then (t, some (.missingBrace t.loc.name (.str key) text))
      else
        match plainLoop text t.loc.name key (List.range lb) with
        | .error e => (t, some e)
        | .ok idxs =>
          ({ t with translations := alInsert t.translations (.str key) ⟨text, idxs⟩ },
           none)

/-- The tail of AddCardinal after the conflict check (lines 137-156): the
    slot is written, then cleared again if "{0}" is absent from the text. -/
def cardFinish (t : Translator) (key text : Str) (rule : PluralRule) (tarr : Slots) :
    Translator × Option Err :=
  match strIndex text paramZero with
  | none =>
    ({ t with cardinalTanslations :=
        alInsert t.cardinalTanslations (.str key) (tarr.set rule none) },
     some (.cardinalTranslation (.paramNotFound paramZero t.loc.name key text)))
  | some idx =>
    ({ t with cardinalTanslations := alInsert t.cardinalTanslations (.str key) (tarr.set rule (some ⟨text, [idx, idx + paramZero.length]⟩)) },
     none)

/-- AddCardinal (translator.go lines 102-157). -/
def Translator.AddCardinal (t : Translator) (k : GoValue) (text : Str)
    (rule : PluralRule) (override : Bool) : Translator × Option Err :=
  match k with
  | .nonString _ => (t, some .keyIsNotString)
  | .str key =>
    if rule ∈ t.loc.pluralsCardinal then
      match alLookup t.cardinalTanslations (.str key) with
      | some tarr =>
        if (tarr rule).isSome && !override then
          (t, some (.conflictingTranslation t.loc.name key rule text))
        else cardFinish t key text rule tarr
      | none => cardFinish t key text rule Slots.empty
    else
      (t, some (.cardinalTranslation (.ruleNotExist rule t.loc.name key text)))

/-- The tail of AddOrdinal after the conflict check (lines 203-222). -/
def ordFinish (t : Translator) (key text : Str) (rule : PluralRule) (tarr : Slots) :
    Translator × Option Err :=
  match strIndex text paramZero with
  | none =>
    ({ t with ordinalTanslations :=
        alInsert t.ordinalTanslations (.str key) (tarr.set rule none) },
     some (.ordinalTranslation (.paramNotFound paramZero t.loc.name key text)))
  | some idx =>
    ({ t with ordinalTanslations := alInsert t.ordinalTanslations (.str key) (tarr.set rule (some ⟨text, [idx, idx + paramZero.length]⟩)) },
     none)

/-- AddOrdinal (translator.go lines 168-223). -/
def Translator.AddOrdinal (t : Translator) (k : GoValue) (text : Str)
    (rule : PluralRule) (override : Bool) : Translator × Option Err :=
  match k with
  | .nonString _ => (t, some .keyIsNotString)
  | .str key =>
    if rule ∈ t.loc.pluralsOrdinal then
      match alLookup t.ordinalTanslations (.str key) with
      | some tarr =>
        if (tarr rule).isSome && !override then
          (t, some (.conflictingTranslation t.loc.name key rule text))
        else ordFinish t key text rule tarr
      | none => ordFinish t key text rule Slots.empty
    else
      (t, some (.ordinalTranslation (.ruleNotExist rule t.loc.name key text)))

/-- The tail of AddRange after the conflict check (lines 268-296): the slot
    is written, then cleared if "{0}" or "{1}" is absent. -/
def rangeFinish (t : Translator) (key text : Str) (rule : PluralRule) (tarr : Slots) :
    Translator × Option Err :=
  match strIndex text paramZero with
  | none =>
    ({ t with rangeTanslations :=
        alInsert t.rangeTanslations (.str key) (tarr.set rule none) },
     some (.rangeTranslation (.paramNotFound paramZero t.loc.name key text)))
  | some idx0 =>
    match strIndex text paramOne with
    | none =>
      ({ t with rangeTanslations :=
          alInsert t.rangeTanslations (.str key) (tarr.set rule none) },
       some (.rangeTranslation (.paramNotFound paramOne t.loc.name key text)))
    | some idx1 =>
      ({ t with rangeTanslations := alInsert t.rangeTanslations (.str key) (tarr.set rule (some ⟨text, [idx0, idx0 + paramZero.length, idx1, idx1 + paramOne.length]⟩)) },
       none)

/-- AddRange (translator.go lines 233-297). -/
def Translator.AddRange (t : Translator) (k : GoValue) (text : Str)
    (rule : PluralRule) (override : Bool) : Translator × Option Err :=
  match k with
  | .nonString _ => (t, some .keyIsNotString)
  | .str key =>
    if rule ∈ t.loc.pluralsRange then
      match alLookup t.rangeTanslations (.str key) with
      | some tarr =>
        if (tarr rule).isSome && !override then
          (t, some (.conflictingTranslation t.loc.name key rule text))
        else rangeFinish t key text rule tarr
      | none => rangeFinish t key text rule Slots.empty
    else
      (t, some (.rangeTranslation (.ruleNotExist rule t.loc.name key text)))

/-- A Go runtime panic that the render operations can hit. -/
inductive GoPanic where
  | indexOutOfRange
  | sliceBounds
  | nilDereference
  deriving DecidableEq

/-- Result of a render call: a string, a returned error, or a panic. -/
inductive RResult where
  | ok (s : Str)
  | fail (e : Err)
  | panicked (p : GoPanic)
  deriving DecidableEq

/-- The splice loop of T (translator.go lines 316-327), walking the offset
    list in pairs.  Go's text[start:end] panics unless start ≤ end ≤ len;
    params[count] panics when count runs past the parameter list; an
    odd-length offset list would run the index i past the list. -/
def spliceLoop (text : Str) : Nat → List Nat → List Str → RResult
  | start, [], _ =>
    if start ≤ text.length then .ok (text.drop start) else .panicked .sliceBounds
  | start, [e], _ =>
    if start ≤ e ∧ e ≤ text.length then .panicked .indexOutOfRange
    else .panicked .sliceBounds
  | start, e :: s :: rest, params =>
    if start ≤ e ∧ e ≤ text.length then
      match params with
      | [] => .panicked .indexOutOfRange
      | p :: ps =>
        match spliceLoop text s rest ps with
        | .ok out => .ok (slice text start e ++ p ++ out)
        | r => r
    else .panicked .sliceBounds

/-- T (translator.go lines 303-330). -/
def Translator.T (t : Translator) (k : GoValue) (params : List Str) : RResult :=
  match k with
  | .nonString _ => .fail .keyIsNotString
  | .str key =>
    match alLookup t.translations (.str key) with
    | none => .fail (.unknownTranslation key)
    | some tr => spliceLoop tr.text 0 tr.indexes params

/-- C (translator.go lines 336-357).  tarr[rule] may be nil, in which case
    trans.text dereferences a nil pointer. -/
def Translator.C (t : Translator) (k : GoValue) (num : Int) (digits : Nat)
    (param : Str) : RResult :=
  match k with
  | .nonString _ => .fail .keyIsNotString
  | .str key =>
    match alLookup t.cardinalTanslations (.str key) with
    | none => .fail (.unknownTranslation key)
    | some tarr =>
      match tarr (t.loc.cardinalPluralRule num digits) with
      | none => .panicked .nilDereference
      | some tr =>
        match tr.indexes with
        | i0 :: i1 :: _ =>
          if i0 ≤ tr.text.length ∧ i1 ≤ tr.text.length then
            .ok (tr.text.take i0 ++ param ++ tr.text.drop i1)
          else .panicked .sliceBounds
        | _ => .panicked .indexOutOfRange

/-- O (translator.go lines 363-384). -/
def Translator.O (t : Translator) (k : GoValue) (num : Int) (digits : Nat)
    (param : Str) : RResult :=
  match k with
  | .nonString _ => .fail .keyIsNotString
  | .str key =>
    match alLookup t.ordinalTanslations (.str key) with
    | none => .fail (.unknownTranslation key)
    | some tarr =>
      match tarr (t.loc.ordinalPluralRule num digits) with
      | none => .panicked .nilDereference
      | some tr =>
        match tr.indexes with
        | i0 :: i1 :: _ =>
          if i0 ≤ tr.text.length ∧ i1 ≤ tr.text.length then
            .ok (tr.text.take i0 ++ param ++ tr.text.drop i1)
          else .panicked .sliceBounds
        | _ => .panicked .indexOutOfRange

/-- R (translator.go lines 391-414). -/
def Translator.R (t : Translator) (k : GoValue) (num1 : Int) (digits1 : Nat)
    (num2 : Int) (digits2 : Nat) (param1 param2 : Str) : RResult :=
  match k with
  | .nonString _ => .fail .keyIsNotString
  | .str key =>
    match alLookup t.rangeTanslations (.str key) with
    | none => .fail (.unknownTranslation key)
    | some tarr =>
      match tarr (t.loc.rangePluralRule num1 digits1 num2 digits2) with
      | none => .panicked .nilDereference
      | some tr =>
        match tr.indexes with
        | i0 :: i1 :: i2 :: i3 :: _ =>
          if i0 ≤ tr.text.length ∧ i1 ≤ i2 ∧ i2 ≤ tr.text.length ∧
             i3 ≤ tr.text.length then
            .ok (tr.text.take i0 ++ param1 ++ slice tr.text i1 i2 ++
                 param2 ++ tr.text.drop i3)
          else .panicked .sliceBounds
        | _ => .panicked .indexOutOfRange

/-- The per-category traversal of VerifyTranslations: for each key (which
    must be a string) every rule of the locale's list must be populated. -/
def verifyCat (locName : Str) (rules : List PluralRule) (tType : Str) :
    List (GoValue × Slots) → Option Err
  | [] => none
  | (k, arr) :: rest =>
    match k with
    | .nonString _ => some .keyIsNotString
    | .str key =>
      match rules.find? (fun r => (arr r).isNone) with
      | some r => some (.missingPluralTranslation locName key r tType)
      | none => verifyCat locName rules tType rest

/-- VerifyTranslations (translator.go lines 420-480). -/
def Translator.VerifyTranslations (t : Translator) : Option Err :=
  match verifyCat t.loc.name t.loc.pluralsCardinal "plural".data
      t.cardinalTanslations with
  | some e => some e
  | none =>
    match verifyCat t.loc.name t.loc.pluralsOrdinal "ordinal".data
        t.ordinalTanslations with
    | some e => some e
    | none =>
      verifyCat t.loc.name t.loc.pluralsRange "range".data t.rangeTanslations

/-- Convenience observer: the stored plain entry at a string key. -/
def Translator.plainEntry (t : Translator) (key : Str) : Option TransText :=
  alLookup t.translations (.str key)

/-- Convenience observer: the cardinal slot at (key, rule). -/
def Translator.cardinalSlot (t : Translator) (key : Str) (r : PluralRule) :
    Option TransText :=
  match alLookup t.cardinalTanslations (.str key) with
  | some arr => arr r
  | none => none

/-- Convenience observer: the ordinal slot at (key, rule). -/
def Translator.ordinalSlot (t : Translator) (key : Str) (r : PluralRule) :
    Option TransText :=
  match alLookup t.ordinalTanslations (.str key) with
  | some arr => arr r
  | none => none

/-- Convenience observer: the range slot at (key, rule). -/
def Translator.rangeSlot (t : Translator) (key : Str) (r : PluralRule) :
    Option TransText :=
  match alLookup t.rangeTanslations (.str key) with
  | some arr => arr r
  | none => none

/-- strings.ToLower, character by character (ASCII use). -/
def goToLower (s : Str) : Str := s.map Char.toLower

/-- The multi-locale registry (struct UniversalTranslator).  Go aliases the
    fallback pointer with the map entry of the matching locale; the claims
    below never read the fallback after a mutation, so value copies are
    faithful for them. -/
structure UniversalTranslator where
  translators : List (Str × Translator)
  fallback : Option Translator

/-- NewUniversalTranslator (universalTranslator.go lines 21-43). -/
def NewUniversalTranslator (fallback : Locale) (supported : List Locale) :
    UniversalTranslator :=
  let r := supported.foldl
    (fun (acc : List (Str × Translator) × Option Translator) v =>
      let tr := newTranslator v
      (alInsert acc.1 (goToLower v.name) tr,
       if fallback.name = v.name then some tr else acc.2))
    ([], none)
  { translators := r.1
    fallback := match r.2 with
      | some fb => some fb
      | none => some (newTranslator fallback) }

/-- FindTranslator (universalTranslator.go lines 47-57). -/
def UniversalTranslator.FindTranslator (ut : UniversalTranslator) :
    List Str → Option Translator × Bool
  | [] => (ut.fallback, false)
  | l :: rest =>
    match alLookup ut.translators (goToLower l) with
    | some tr => (some tr, true)
    | none => ut.FindTranslator rest

/-- GetTranslator (universalTranslator.go lines 60-67). -/
def UniversalTranslator.GetTranslator (ut : UniversalTranslator) (locale : Str) :
    Option Translator × Bool :=
  match alLookup ut.translators (goToLower locale) with
  | some tr => (some tr, true)
  | none => (ut.fallback, false)

/-- The rule-type tags of the serialized format (part_000 lines 21-26). -/
def RuleTypePlain : Str := "plain".data

/-- Rule-type tag for cardinal records. -/
def RuleTypeCardinal : Str := "cardinal".data

/-- Rule-type tag for ordinal records. -/
def RuleTypeOrdinal : Str := "ordinal".data

/-- Rule-type tag for range records. -/
def RuleTypeRange : Str := "range".data

/-- One flat serialized record (struct translation of part_000): the TOML
    encode/decode of the actual file format is an external collaborator and
    is modelled as the identity on these records. -/
structure Translation where
  locale : Str
  overrideExisting : Bool
  ruleType : Str
  zero : Str
  one : Str
  two : Str
  few : Str
  many : Str
  other : Str
  deriving DecidableEq

/-- The zero value &translation\x7b\x7d. -/
def emptyTranslation : Translation :=
  { locale := [], overrideExisting := false, ruleType := []
    zero := [], one := [], two := [], few := [], many := [], other := [] }

/-- The per-document record map (type translations of part_000); TOML maps
    are keyed by strings. -/
abbrev Translations := List (Str × Translation)

/-- Read trans[key], materialising the zero record the Go code inserts for
    an absent key before mutating its fields. -/
def getRecord (ts : Translations) (key : Str) : Translation :=
  match alLookup ts key with
  | some r => r
  | none => emptyTranslation

/-- Write trans[key]. -/
def setRecord (ts : Translations) (key : Str) (r : Translation) : Translations :=
  alInsert ts key r

/-- The switch of exportPlurals writing one named field per rule; the
    "unknown" rule name has no case and is dropped. -/
def setRuleField (rec : Translation) (r : PluralRule) (txt : Str) : Translation :=
  match r with
  | .zero => { rec with zero := txt }
  | .one => { rec with one := txt }
  | .two => { rec with two := txt }
  | .few => { rec with few := txt }
  | .many => { rec with many := txt }
  | .other => { rec with other := txt }
  | .unknown => rec

/-- The inner loop of exportPlurals over one key's slot array (part_000
    lines 282-302): every non-nil slot stamps the locale and rule type on
    the record and stores its text in the field named after the rule. -/
def exportSlots (l rt : Str) (arr : Slots) (rec : Translation) : Translation :=
  ruleOrder.foldl
    (fun rec r =>
      match arr r with
      | none => rec
      | some plural => setRuleField { rec with locale := l, ruleType := rt } r plural.text)
    rec

/-- The plain-map loop of Export (part_000 lines 75-85). -/
def exportPlain (l : Str) : List (GoValue × TransText) → Translations →
    Except Err Translations
  | [], ts => .ok ts
  | (k, v) :: rest, ts =>
    match k with
    | .nonString _ => .error .keyIsNotString
    | .str key =>
      exportPlain l rest
        (setRecord ts key { getRecord ts key with locale := l, other := v.text })

/-- exportPlurals (part_000 lines 263-305), minus the logging. -/
def exportPlurals (l rt : Str) : List (GoValue × Slots) → Translations →
    Except Err Translations
  | [], ts => .ok ts
  | (k, arr) :: rest, ts =>
    match k with
    | .nonString _ => .error .keyIsNotString
    | .str key =>
      exportPlurals l rt rest (setRecord ts key (exportSlots l rt arr (getRecord ts key)))

/-- The record-building body of Export for one locale (part_000 lines
    70-97); the TOML encoding and file write that follow are external I/O
    and outside the model. -/
def exportRecords (tr : Translator) : Except Err Translations :=
  match exportPlain tr.loc.name tr.translations [] with
  | .error e => .error e
  | .ok ts =>
    match exportPlurals tr.loc.name RuleTypeCardinal tr.cardinalTanslations ts with
    | .error e => .error e
    | .ok ts =>
      match exportPlurals tr.loc.name RuleTypeOrdinal tr.ordinalTanslations ts with
      | .error e => .error e
      | .ok ts => exportPlurals tr.loc.name RuleTypeRange tr.rangeTanslations ts

/-- Which plural Add-family function a record's rule type selects. -/
inductive RuleCat where
  | cardinal
  | ordinal
  | range
  deriving DecidableEq

/-- The addFn dispatch of ImportFromReader. -/
def addByCat (tr : Translator) (cat : RuleCat) (k : GoValue) (text : Str)
    (rule : PluralRule) (ov : Bool) : Translator × Option Err :=
  match cat with
  | .cardinal => tr.AddCardinal k text rule ov
  | .ordinal => tr.AddOrdinal k text rule ov
  | .range => tr.AddRange k text rule ov

/-- The field list a plural record is applied in: the fixed order
    Zero, One, Two, Few, Many, Other of ImportFromReader lines 224-253. -/
def fieldList (rec : Translation) : List (Str × PluralRule) :=
  [(rec.zero, .zero), (rec.one, .one), (rec.two, .two),
   (rec.few, .few), (rec.many, .many), (rec.other, .other)]

/-- Applies the non-empty fields of a plural record through the selected
    Add-family function, stopping at the first error. -/
def addFieldsLoop (cat : RuleCat) (k : GoValue) (ov : Bool) :
    Translator → List (Str × PluralRule) → Translator × Option Err
  | tr, [] => (tr, none)
  | tr, (txt, rule) :: rest =>
    if txt = [] then addFieldsLoop cat k ov tr rest
    else
      match addByCat tr cat k txt rule ov with
      | (tr', none) => addFieldsLoop cat k ov tr' rest
      | (tr', some e) => (tr', some e)

/-- Processing of one record of ImportFromReader (lines 194-253).  Go finds
    the locale's translator via FindTranslator, which for a single locale is
    the map lookup at the lowercased name; the mutated translator is written
    back at that same map slot (Go mutates it in place through the map). -/
def UniversalTranslator.applyRecord (ut : UniversalTranslator) (key : Str)
    (rec : Translation) : UniversalTranslator × Option Err :=
  let lkey := goToLower rec.locale
  match alLookup ut.translators lkey with
  | none => (ut, some (.localeNotRegistered rec.locale))
  | some locTr =>
    let rt := goToLower rec.ruleType
    if rt = [] ∨ rt = RuleTypePlain then
      match locTr.Add (.str key) rec.other rec.overrideExisting with
      | (tr, res) =>
        ({ ut with translators := alInsert ut.translators lkey tr }, res)
    else if rt = RuleTypeCardinal then
      match addFieldsLoop .cardinal (.str key) rec.overrideExisting locTr
          (fieldList rec) with
      | (tr, res) =>
        ({ ut with translators := alInsert ut.translators lkey tr }, res)
    else if rt = RuleTypeOrdinal then
      match addFieldsLoop .ordinal (.str key) rec.overrideExisting locTr
          (fieldList rec) with
      | (tr, res) =>
        ({ ut with translators := alInsert ut.translators lkey tr }, res)
    else if rt = RuleTypeRange then
      match addFieldsLoop .range (.str key) rec.overrideExisting locTr
          (fieldList rec) with
      | (tr, res) =>
        ({ ut with translators := alInsert ut.translators lkey tr }, res)
    else (ut, some (.invalidRuleType rec.ruleType))

/-- The record loop of ImportFromReader (lines 194-256): records are
    applied in sequence and the first Add-family error stops the run;
    translators mutated so far stay mutated.  The TOML decoding of the
    reader's bytes into the record list is external and outside the model. -/
def UniversalTranslator.importRecords :
    UniversalTranslator → Translations → UniversalTranslator × Option Err
  | ut, [] => (ut, none)
  | ut, (key, rec) :: rest =>
    match ut.applyRecord key rec with
    | (ut', none) => ut'.importRecords rest
    | (ut', some e) => (ut', some e)

/-- The slot array the plural Add functions operate on: the stored one, or
    the fresh all-nil array created for an absent key. -/
def Translator.cardArr (t : Translator) (key : Str) : Slots :=
  match alLookup t.cardinalTanslations (.str key) with
  | some arr => arr
  | none => Slots.empty

/-- Ordinal analogue of cardArr. -/
def Translator.ordArr (t : Translator) (key : Str) : Slots :=
  match alLookup t.ordinalTanslations (.str key) with
  | some arr => arr
  | none => Slots.empty

/-- Range analogue of cardArr. -/
def Translator.rangeArr (t : Translator) (key : Str) : Slots :=
  match alLookup t.rangeTanslations (.str key) with
  | some arr => arr
  | none => Slots.empty

/-- A template with segments ss interleaved with the placeholders numbered
    from i upward: mkTemplate 0 [s0, s1, ..., sN] is
    s0 followed by the placeholder of 0, s1, ..., the placeholder of N-1, sN. -/
def mkTemplate : Nat → List Str → Str
  | _, [] => []
  | _, [s] => s
  | i, s :: ss => s ++ (placeholder i ++ mkTemplate (i + 1) ss)

/-- The segments interleaved with the positional parameters instead of the
    placeholders: the expected output of a correct render. -/
def mkFilled : List Str → List Str → Str
  | [], _ => []
  | [s], _ => s
  | s :: _, [] => s
  | s :: ss, p :: ps => s ++ p ++ mkFilled ss ps

/-- All segments are free of brace characters. -/
def segsBraceFree (ss : List Str) : Bool :=
  ss.all fun s => s.all fun c => !(c == '{') && !(c == '}')

/-- The offset-pair list Add computes for mkTemplate: for each placeholder,
    its byte offset and the offset just past it, in placeholder order. -/
def phIdxs : Nat → List Str → List Nat
  | _, [] => []
  | _, [_] => []
  | k, s :: ss =>
    s.length :: (s.length + (placeholder k).length) ::
      (phIdxs (k + 1) ss).map (fun x => x + (s.length + (placeholder k).length))

/-- Every key of the association list is a string value. -/
def strKeysB {V : Type} (m : List (GoValue × V)) : Bool :=
  m.all fun p =>
    match p.1 with
    | .str _ => true
    | .nonString _ => false

/-- Completeness of one plural category: every stored key's array populates
    every rule of the locale's list for the category. -/
def catComplete (rules : List PluralRule) (m : List (GoValue × Slots)) : Prop :=
  ∀ p ∈ m, ∀ r ∈ rules, (p.2 r).isSome = true

/-- Keys of the association list are pairwise distinct (Go map invariant). -/
def keysNodupB {K V : Type} [DecidableEq K] : List (K × V) → Bool
  | [] => true
  | (k, _) :: rest => (alLookup rest k).isNone && keysNodupB rest

/-- No key of the first list occurs in the second. -/
def keysDisjointB {K V W : Type} [DecidableEq K] (m₁ : List (K × V))
    (m₂ : List (K × W)) : Bool :=
  m₁.all fun p => (alLookup m₂ p.1).isNone

/-- The rule list mentions only the six named rules (never unknown). -/
def rulesSubSixB (rules : List PluralRule) : Bool :=
  rules.all fun r => decide (r ∈ sixRules)

/-- A stored plain entry is exactly what a successful Add computes from its
    text (reachable-state invariant of the plain map). -/
def wfPlainB (loc : Locale) (m : List (GoValue × TransText)) : Bool :=
  m.all fun p =>
    match p.1 with
    | .nonString _ => false
    | .str key =>
      let lb := countChar p.2.text '{'
      (lb == countChar p.2.text '}') &&
        match plainLoop p.2.text loc.name key (List.range lb) with
        | .error _ => false
        | .ok idxs => idxs == p.2.indexes

/-- A stored slot array is exactly what successful plural Adds compute:
    the unknown slot is empty, at least one named slot is populated, and
    every populated slot sits at a valid rule with the offsets recomputable
    from its text (needTwo selects the range shape). -/
def wfSlotB (rules : List PluralRule) (needTwo : Bool) (arr : Slots) : Bool :=
  (arr .unknown).isNone &&
  (sixRules.any fun r => (arr r).isSome) &&
  (sixRules.all fun r =>
    match arr r with
    | none => true
    | some tr =>
      decide (r ∈ rules) &&
        match strIndex tr.text paramZero with
        | none => false
        | some i =>
          if needTwo then
            match strIndex tr.text paramOne with
            | none => false
            | some j =>
              tr.indexes == [i, i + paramZero.length, j, j + paramOne.length]
          else tr.indexes == [i, i + paramZero.length])

/-- wfSlotB over a whole plural map, with string keys. -/
def wfPluralMapB (rules : List PluralRule) (needTwo : Bool)
    (m : List (GoValue × Slots)) : Bool :=
  m.all fun p =>
    (match p.1 with
     | .str _ => true
     | .nonString _ => false) && wfSlotB rules needTwo p.2

/-- The reachable-state invariant a fully built store satisfies, plus the
    category-disjointness and named-rules side conditions of the round
    trip: entries recompute from their texts, map keys are distinct strings,
    no key lives in two categories, and the locale's rule lists avoid the
    unknown rule. -/
def storeOk (t : Translator) : Bool :=
  wfPlainB t.loc t.translations &&
  wfPluralMapB t.loc.pluralsCardinal false t.cardinalTanslations &&
  wfPluralMapB t.loc.pluralsOrdinal false t.ordinalTanslations &&
  wfPluralMapB t.loc.pluralsRange true t.rangeTanslations &&
  keysNodupB t.translations && keysNodupB t.cardinalTanslations &&
  keysNodupB t.ordinalTanslations && keysNodupB t.rangeTanslations &&
  keysDisjointB t.cardinalTanslations t.translations &&
  keysDisjointB t.ordinalTanslations t.translations &&
  keysDisjointB t.ordinalTanslations t.cardinalTanslations &&
  keysDisjointB t.rangeTanslations t.translations &&
  keysDisjointB t.rangeTanslations t.cardinalTanslations &&
  keysDisjointB t.rangeTanslations t.ordinalTanslations &&
  rulesSubSixB t.loc.pluralsCardinal && rulesSubSixB t.loc.pluralsOrdinal &&
  rulesSubSixB t.loc.pluralsRange

/-- The string of a string-valued key (the keys of every reachable map). -/
def keyStr : GoValue → Str
  | .str s => s
  | .nonString _ => []

/-- The text a slot contributes to its named record field: the stored text,
    or the empty string for an empty slot. -/
def fieldOf (arr : Slots) (r : PluralRule) : Str :=
  match arr r with
  | some tr => tr.text
  | none => []

/-- The records Export builds from a plain map. -/
def plainRecsOf (l : Str) (m : List (GoValue × TransText)) : Translations :=
  m.map (fun p => (keyStr p.1, { emptyTranslation with locale := l, other := p.2.text }))

/-- The records Export builds from one plural map. -/
def pluralRecsOf (l rt : Str) (m : List (GoValue × Slots)) : Translations :=
  m.map (fun p => (keyStr p.1, exportSlots l rt p.2 emptyTranslation))

/-- A small test locale whose three categories all accept the other rule
    (the selector functions are arbitrary in the model). -/
def locSimple : Locale :=
  { name := "en".data
    pluralsCardinal := [.other]
    pluralsOrdinal := [.other]
    pluralsRange := [.other]
    cardinalPluralRule := fun _ _ => .other
    ordinalPluralRule := fun _ _ => .other
    rangePluralRule := fun _ _ _ _ => .other }

/-- A test locale requiring the rules one and other for cardinals, as in
    the verification scenario of the spec. -/
def locTwo : Locale :=
  { name := "en".data
    pluralsCardinal := [.one, .other]
    pluralsOrdinal := [.other]
    pluralsRange := [.other]
    cardinalPluralRule := fun _ _ => .other
    ordinalPluralRule := fun _ _ => .other
    rangePluralRule := fun _ _ _ _ => .other }

/-- A store holding the key k both as a plain translation and as a fully
    populated cardinal translation: it passes verification. -/
def c2exTrans : Translator :=
  (((newTranslator locSimple).Add (.str "k".data) "hello".data false).1.AddCardinal
    (.str "k".data) (['{', '0', '}'] ++ " days".data) .other false).1

/-- The records Export builds for c2exTrans. -/
def c2exRecs : Translations := ((exportRecords c2exTrans).toOption).getD []

/-- Importing those records into a fresh registry for the same locale. -/
def c2exImport : UniversalTranslator × Option Err :=
  (NewUniversalTranslator locSimple [locSimple]).importRecords c2exRecs

/-- The re-imported store. -/
def c2exAfter : Translator :=
  (alLookup c2exImport.1.translators (goToLower locSimple.name)).getD
    (newTranslator locSimple)

/-- The text "a \x7b0" with an unbalanced brace and no complete placeholder. -/
def unbalText : Str := ['a', ' ', '{', '0']

/-- A text with no placeholder at all. -/
def noPhText : Str := "days left".data

/-- A text containing only the zero placeholder. -/
def zeroOnlyText : Str := ['{', '0', '}'] ++ " d".data

/-- A well-formed range text with both placeholders in order. -/
def rangeText : Str := ['{', '0', '}', '-', '{', '1', '}']

/-- A range text whose one placeholder sits at the very start of the text. -/
def rangeTextOneFirst : Str := ['{', '1', '}', '-', '{', '0', '}']

/-- A store with valid entries at key k, rule other, in all three plural
    categories (base state of the override-erasure witness). -/
def c9Base : Translator :=
  let t1 := ((newTranslator locSimple).AddCardinal (.str "k".data) zeroOnlyText
    .other false).1
  let t2 := (t1.AddOrdinal (.str "k".data) zeroOnlyText .other false).1
  (t2.AddRange (.str "k".data) rangeText .other false).1

/-- c9Base extended with a plain entry at the same key (base state of the
    conflict-policy witness). -/
def c6Base : Translator := (c9Base.Add (.str "k".data) "hello".data false).1

/-- A plain template whose placeholders appear out of numeric order. -/
def outOfOrderText : Str := ['{', '1', '}', 'a', '{', '0', '}']

/-- A plain-rule import record for the test locale. -/
def plainRec (txt : Str) : Translation :=
  { emptyTranslation with locale := "en".data, other := txt }

/-- A cardinal store for locTwo populated only at rule other: the
    verification scenario with the one form missing. -/
def c4Store : Translator :=
  ((newTranslator locTwo).AddCardinal (.str "days".data) zeroOnlyText
    .other false).1

/-- The slot array accumulated while a plural record's fields are imported:
    none before the first field is stored, some array afterwards; each
    populated rule of the source array is copied over in order. -/
def slotsMergeO (arr : Slots) : List PluralRule → Option Slots → Option Slots
  | [], cur => cur
  | r :: rs, cur =>
    slotsMergeO arr rs
      (match arr r with
       | none => cur
       | some e => some ((cur.getD Slots.empty).set r (some e)))

/-- The translator state while a cardinal record is imported: untouched
    before the first field is stored, the key written afterwards. -/
def stateCard (t0 : Translator) (key : Str) : Option Slots → Translator
  | none => t0
  | some s =>
    { t0 with cardinalTanslations :=
        alInsert t0.cardinalTanslations (GoValue.str key) s }

/-- Ordinal analogue of stateCard. -/
def stateOrd (t0 : Translator) (key : Str) : Option Slots → Translator
  | none => t0
  | some s =>
    { t0 with ordinalTanslations :=
        alInsert t0.ordinalTanslations (GoValue.str key) s }

/-- Range analogue of stateCard. -/
def stateRange (t0 : Translator) (key : Str) : Option Slots → Translator
  | none => t0
  | some s =>
    { t0 with rangeTanslations :=
        alInsert t0.rangeTanslations (GoValue.str key) s }

/-- A store with one locale and all four maps populated at pairwise
    distinct keys: the round-trip witness state. -/
def c2wit : Translator :=
  let t1 := ((newTranslator locSimple).Add (.str "k".data) "hello".data false).1
  let t2 := (t1.AddCardinal (.str "c".data) zeroOnlyText .other false).1
  let t3 := (t2.AddOrdinal (.str "o".data) zeroOnlyText .other false).1
  (t3.AddRange (.str "r".data) rangeText .other false).1

/-! ### Helper lemmas: association lists, slot arrays, strIndex -/

theorem alLookup_alInsert_self {K V : Type} [DecidableEq K] (m : List (K × V))
    (k : K) (v : V) : alLookup (alInsert m k v) k = some v := by
  induction m with
  | nil => simp [alInsert, alLookup]
  | cons p rest ih =>
    obtain ⟨k', v'⟩ := p
    by_cases h : k' = k
    · simp [alInsert, h, alLookup]
    · simp [alInsert, h, alLookup, ih]

theorem alLookup_alInsert_ne {K V : Type} [DecidableEq K] (m : List (K × V))
    (k k' : K) (v : V) (h : k' ≠ k) :
    alLookup (alInsert m k v) k' = alLookup m k' := by
  induction m with
  | nil => simp [alInsert, alLookup, Ne.symm h]
  | cons p rest ih =>
    obtain ⟨k'', v''⟩ := p
    by_cases hk : k'' = k
    · subst hk
      simp [alInsert, alLookup, Ne.symm h]
    · by_cases hk' : k'' = k'
      · subst hk'
        simp [alInsert, hk, alLookup, h]
      · simp [alInsert, hk, alLookup, hk', ih]

theorem Slots.set_self (a : Slots) (r : PluralRule) (v : Option TransText) :
    (a.set r v) r = v := by
  simp [Slots.set]

theorem Slots.set_ne (a : Slots) (r r' : PluralRule) (v : Option TransText)
    (h : r' ≠ r) : (a.set r v) r' = a r' := by
  simp [Slots.set, h]

theorem strIndex_le_length (s pat : Str) (i : Nat) (h : strIndex s pat = some i) :
    i ≤ s.length := by
  induction s generalizing i with
  | nil =>
    simp only [strIndex] at h
    split at h
    · cases h
      exact Nat.le_refl 0
    · exact Option.noConfusion h
  | cons c s ih =>
    simp only [strIndex] at h
    split at h
    · cases h
      simp
    · cases hs : strIndex s pat with
      | none =>
        rw [hs] at h
        exact Option.noConfusion h
      | some j =>
        rw [hs] at h
        simp at h
        have hj := ih j hs
        simp only [List.length_cons]
        omega

theorem hasPref_length (pat s : Str) (h : hasPref pat s = true) :
    pat.length ≤ s.length := by
  induction pat generalizing s with
  | nil => simp
  | cons a as ih =>
    cases s with
    | nil => simp [hasPref] at h
    | cons b bs =>
      simp only [hasPref, Bool.and_eq_true] at h
      have := ih bs h.2
      simp only [List.length_cons]
      omega

theorem strIndex_add_length_le (s pat : Str) (i : Nat)
    (h : strIndex s pat = some i) : i + pat.length ≤ s.length := by
  induction s generalizing i with
  | nil =>
    simp only [strIndex] at h
    split at h
    · rename_i hp
      cases h
      cases pat with
      | nil => simp
      | cons a as => simp [hasPref] at hp
    · exact Option.noConfusion h
  | cons c s ih =>
    simp only [strIndex] at h
    split at h
    · rename_i hp
      cases h
      simpa using hasPref_length pat (c :: s) hp
    · cases hs : strIndex s pat with
      | none =>
        rw [hs] at h
        exact Option.noConfusion h
      | some j =>
        rw [hs] at h
        simp at h
        have hj := ih j hs
        simp only [List.length_cons]
        omega

/-! ### Reaching the placeholder check of the plural Add functions -/

theorem AddCardinal_reach (t : Translator) (key text : Str) (rule : PluralRule)
    (ov : Bool) (hr : rule ∈ t.loc.pluralsCardinal)
    (hc : t.cardinalSlot key rule = none ∨ ov = true) :
    t.AddCardinal (.str key) text rule ov =
      cardFinish t key text rule (t.cardArr key) := by
  unfold Translator.AddCardinal Translator.cardArr
  simp only [if_pos hr]
  cases hl : alLookup t.cardinalTanslations (.str key) with
  | none => rfl
  | some tarr =>
    have hcond : ((tarr rule).isSome && !ov) = false := by
      rcases hc with hc | hc
      · simp only [Translator.cardinalSlot, hl] at hc
        simp [hc]
      · simp [hc]
    simp [hcond]

theorem AddOrdinal_reach (t : Translator) (key text : Str) (rule : PluralRule)
    (ov : Bool) (hr : rule ∈ t.loc.pluralsOrdinal)
    (hc : t.ordinalSlot key rule = none ∨ ov = true) :
    t.AddOrdinal (.str key) text rule ov =
      ordFinish t key text rule (t.ordArr key) := by
  unfold Translator.AddOrdinal Translator.ordArr
  simp only [if_pos hr]
  cases hl : alLookup t.ordinalTanslations (.str key) with
  | none => rfl
  | some tarr =>
    have hcond : ((tarr rule).isSome && !ov) = false := by
      rcases hc with hc | hc
      · simp only [Translator.ordinalSlot, hl] at hc
        simp [hc]
      · simp [hc]
    simp [hcond]

theorem AddRange_reach (t : Translator) (key text : Str) (rule : PluralRule)
    (ov : Bool) (hr : rule ∈ t.loc.pluralsRange)
    (hc : t.rangeSlot key rule = none ∨ ov = true) :
    t.AddRange (.str key) text rule ov =
      rangeFinish t key text rule (t.rangeArr key) := by
  unfold Translator.AddRange Translator.rangeArr
  simp only [if_pos hr]
  cases hl : alLookup t.rangeTanslations (.str key) with
  | none => rfl
  | some tarr =>
    have hcond : ((tarr rule).isSome && !ov) = false := by
      rcases hc with hc | hc
      · simp only [Translator.rangeSlot, hl] at hc
        simp [hc]
      · simp [hc]
    simp [hcond]

/-! ### The failing placeholder checks and the erased slot -/

theorem addCardinal_missing_core (t : Translator) (key text : Str)
    (rule : PluralRule) (ov : Bool) (hr : rule ∈ t.loc.pluralsCardinal)
    (hc : t.cardinalSlot key rule = none ∨ ov = true)
    (hmiss : strIndex text paramZero = none) :
    (t.AddCardinal (.str key) text rule ov).2 =
      some (.cardinalTranslation (.paramNotFound paramZero t.loc.name key text)) ∧
    (t.AddCardinal (.str key) text rule ov).1.cardinalSlot key rule = none := by
  rw [AddCardinal_reach t key text rule ov hr hc]
  unfold cardFinish
  rw [hmiss]
  refine ⟨rfl, ?_⟩
  unfold Translator.cardinalSlot
  simp [alLookup_alInsert_self, Slots.set_self]

theorem addOrdinal_missing_core (t : Translator) (key text : Str)
    (rule : PluralRule) (ov : Bool) (hr : rule ∈ t.loc.pluralsOrdinal)
    (hc : t.ordinalSlot key rule = none ∨ ov = true)
    (hmiss : strIndex text paramZero = none) :
    (t.AddOrdinal (.str key) text rule ov).2 =
      some (.ordinalTranslation (.paramNotFound paramZero t.loc.name key text)) ∧
    (t.AddOrdinal (.str key) text rule ov).1.ordinalSlot key rule = none := by
  rw [AddOrdinal_reach t key text rule ov hr hc]
  unfold ordFinish
  rw [hmiss]
  refine ⟨rfl, ?_⟩
  unfold Translator.ordinalSlot
  simp [alLookup_alInsert_self, Slots.set_self]

theorem addRange_missingZero_core (t : Translator) (key text : Str)
    (rule : PluralRule) (ov : Bool) (hr : rule ∈ t.loc.pluralsRange)
    (hc : t.rangeSlot key rule = none ∨ ov = true)
    (hmiss : strIndex text paramZero = none) :
    (t.AddRange (.str key) text rule ov).2 =
      some (.rangeTranslation (.paramNotFound paramZero t.loc.name key text)) ∧
    (t.AddRange (.str key) text rule ov).1.rangeSlot key rule = none := by
  rw [AddRange_reach t key text rule ov hr hc]
  unfold rangeFinish
  rw [hmiss]
  refine ⟨rfl, ?_⟩
  unfold Translator.rangeSlot
  simp [alLookup_alInsert_self, Slots.set_self]

theorem addRange_missingOne_core (t : Translator) (key text : Str)
    (rule : PluralRule) (ov : Bool) (i0 : Nat) (hr : rule ∈ t.loc.pluralsRange)
    (hc : t.rangeSlot key rule = none ∨ ov = true)
    (hz : strIndex text paramZero = some i0)
    (hmiss : strIndex text paramOne = none) :
    (t.AddRange (.str key) text rule ov).2 =
      some (.rangeTranslation (.paramNotFound paramOne t.loc.name key text)) ∧
    (t.AddRange (.str key) text rule ov).1.rangeSlot key rule = none := by
  rw [AddRange_reach t key text rule ov hr hc]
  unfold rangeFinish
  rw [hz, hmiss]
  refine ⟨rfl, ?_⟩
  unfold Translator.rangeSlot
  simp [alLookup_alInsert_self, Slots.set_self]

theorem addRange_success_core (t : Translator) (key text : Str)
    (rule : PluralRule) (ov : Bool) (i0 i1 : Nat) (hr : rule ∈ t.loc.pluralsRange)
    (hc : t.rangeSlot key rule = none ∨ ov = true)
    (hz : strIndex text paramZero = some i0)
    (ho : strIndex text paramOne = some i1) :
    (t.AddRange (.str key) text rule ov).2 = none ∧
    (t.AddRange (.str key) text rule ov).1.rangeSlot key rule =
      some ⟨text, [i0, i0 + paramZero.length, i1, i1 + paramOne.length]⟩ := by
  rw [AddRange_reach t key text rule ov hr hc]
  unfold rangeFinish
  rw [hz, ho]
  refine ⟨rfl, ?_⟩
  unfold Translator.rangeSlot
  simp [alLookup_alInsert_self, Slots.set_self]

/-! ### Plain Add helpers -/

theorem Add_missingBrace (t : Translator) (key text : Str) (ov : Bool)
    (hpass : alLookup t.translations (.str key) = none ∨ ov = true)
    (hub : countChar text '{' ≠ countChar text '}') :
    t.Add (.str key) text ov =
      (t, some (.missingBrace t.loc.name (.str key) text)) := by
  unfold Translator.Add
  have hcond : ((alLookup t.translations (.str key)).isSome && !ov) = false := by
    rcases hpass with h | h <;> simp [h]
  simp only [hcond, Bool.false_eq_true, if_false]
  rw [if_pos hub]

theorem Add_success (t : Translator) (key text : Str) (ov : Bool) (idxs : List Nat)
    (hpass : alLookup t.translations (.str key) = none ∨ ov = true)
    (hbal : countChar text '{' = countChar text '}')
    (hloop : plainLoop text t.loc.name key (List.range (countChar text '{')) = .ok idxs) :
    t.Add (.str key) text ov =
      ({ t with translations := alInsert t.translations (.str key) ⟨text, idxs⟩ },
       none) := by
  unfold Translator.Add
  have hcond : ((alLookup t.translations (.str key)).isSome && !ov) = false := by
    rcases hpass with h | h <;> simp [h]
  simp only [hcond, Bool.false_eq_true, if_false]
  rw [if_neg (fun hx => hx hbal), hloop]

/-! ### Conflict and override-state helpers -/

theorem Add_conflict (t : Translator) (key text : Str) (e : TransText)
    (hpe : t.plainEntry key = some e) :
    t.Add (.str key) text false =
      (t, some (.conflictingTranslation t.loc.name key .unknown text)) := by
  unfold Translator.Add
  simp only [Translator.plainEntry] at hpe
  simp [hpe]

theorem AddCardinal_conflict (t : Translator) (key text : Str) (rule : PluralRule)
    (old : TransText) (hr : rule ∈ t.loc.pluralsCardinal)
    (hs : t.cardinalSlot key rule = some old) :
    t.AddCardinal (.str key) text rule false =
      (t, some (.conflictingTranslation t.loc.name key rule text)) := by
  unfold Translator.AddCardinal
  simp only [Translator.cardinalSlot] at hs
  cases hl : alLookup t.cardinalTanslations (.str key) with
  | none =>
    rw [hl] at hs
    exact Option.noConfusion hs
  | some tarr =>
    rw [hl] at hs
    have hs' : tarr rule = some old := hs
    simp only [if_pos hr, hl]
    simp [hs']

theorem AddOrdinal_conflict (t : Translator) (key text : Str) (rule : PluralRule)
    (old : TransText) (hr : rule ∈ t.loc.pluralsOrdinal)
    (hs : t.ordinalSlot key rule = some old) :
    t.AddOrdinal (.str key) text rule false =
      (t, some (.conflictingTranslation t.loc.name key rule text)) := by
  unfold Translator.AddOrdinal
  simp only [Translator.ordinalSlot] at hs
  cases hl : alLookup t.ordinalTanslations (.str key) with
  | none =>
    rw [hl] at hs
    exact Option.noConfusion hs
  | some tarr =>
    rw [hl] at hs
    have hs' : tarr rule = some old := hs
    simp only [if_pos hr, hl]
    simp [hs']

theorem AddRange_conflict (t : Translator) (key text : Str) (rule : PluralRule)
    (old : TransText) (hr : rule ∈ t.loc.pluralsRange)
    (hs : t.rangeSlot key rule = some old) :
    t.AddRange (.str key) text rule false =
      (t, some (.conflictingTranslation t.loc.name key rule text)) := by
  unfold Translator.AddRange
  simp only [Translator.rangeSlot] at hs
  cases hl : alLookup t.rangeTanslations (.str key) with
  | none =>
    rw [hl] at hs
    exact Option.noConfusion hs
  | some tarr =>
    rw [hl] at hs
    have hs' : tarr rule = some old := hs
    simp only [if_pos hr, hl]
    simp [hs']

theorem AddCardinal_override_state (t : Translator) (key text : Str)
    (rule : PluralRule) (i : Nat) (hr : rule ∈ t.loc.pluralsCardinal)
    (hz : strIndex text paramZero = some i) :
    t.AddCardinal (.str key) text rule true =
      ({ t with cardinalTanslations := alInsert t.cardinalTanslations (.str key) ((t.cardArr key).set rule (some ⟨text, [i, i + paramZero.length]⟩)) },
       none) := by
  rw [AddCardinal_reach t key text rule true hr (Or.inr rfl)]
  unfold cardFinish
  rw [hz]

theorem AddOrdinal_override_state (t : Translator) (key text : Str)
    (rule : PluralRule) (i : Nat) (hr : rule ∈ t.loc.pluralsOrdinal)
    (hz : strIndex text paramZero = some i) :
    t.AddOrdinal (.str key) text rule true =
      ({ t with ordinalTanslations := alInsert t.ordinalTanslations (.str key) ((t.ordArr key).set rule (some ⟨text, [i, i + paramZero.length]⟩)) },
       none) := by
  rw [AddOrdinal_reach t key text rule true hr (Or.inr rfl)]
  unfold ordFinish
  rw [hz]

theorem AddRange_override_state (t : Translator) (key text : Str)
    (rule : PluralRule) (i0 i1 : Nat) (hr : rule ∈ t.loc.pluralsRange)
    (hz : strIndex text paramZero = some i0)
    (ho : strIndex text paramOne = some i1) :
    t.AddRange (.str key) text rule true =
      ({ t with rangeTanslations := alInsert t.rangeTanslations (.str key) ((t.rangeArr key).set rule (some ⟨text, [i0, i0 + paramZero.length, i1, i1 + paramOne.length]⟩)) },
       none) := by
  rw [AddRange_reach t key text rule true hr (Or.inr rfl)]
  unfold rangeFinish
  rw [hz, ho]

/-! ### Claims C3, C5, C8, C9 -/

/-- C3: for every plural category, an Add called with a valid rule and a
text missing the required placeholder (the zero placeholder, or the one
placeholder for range) returns the category-specific error and leaves the
slot at (key, rule) empty, so a later verify or render never observes a
half-initialized slot from the failed add. -/
theorem c3_failed_add_slot_empty (t : Translator) (key text text2 : Str)
    (rule : PluralRule) (ov : Bool) (i0 : Nat)
    (hmiss : strIndex text paramZero = none)
    (hz2 : strIndex text2 paramZero = some i0)
    (hm2 : strIndex text2 paramOne = none)
    (hcr : rule ∈ t.loc.pluralsCardinal) (hor : rule ∈ t.loc.pluralsOrdinal)
    (hrr : rule ∈ t.loc.pluralsRange)
    (hc : t.cardinalSlot key rule = none ∨ ov = true)
    (ho : t.ordinalSlot key rule = none ∨ ov = true)
    (hra : t.rangeSlot key rule = none ∨ ov = true) :
    ((t.AddCardinal (.str key) text rule ov).2 =
        some (.cardinalTranslation (.paramNotFound paramZero t.loc.name key text)) ∧
      (t.AddCardinal (.str key) text rule ov).1.cardinalSlot key rule = none) ∧
    ((t.AddOrdinal (.str key) text rule ov).2 =
        some (.ordinalTranslation (.paramNotFound paramZero t.loc.name key text)) ∧
      (t.AddOrdinal (.str key) text rule ov).1.ordinalSlot key rule = none) ∧
    ((t.AddRange (.str key) text rule ov).2 =
        some (.rangeTranslation (.paramNotFound paramZero t.loc.name key text)) ∧
      (t.AddRange (.str key) text rule ov).1.rangeSlot key rule = none) ∧
    ((t.AddRange (.str key) text2 rule ov).2 =
        some (.rangeTranslation (.paramNotFound paramOne t.loc.name key text2)) ∧
      (t.AddRange (.str key) text2 rule ov).1.rangeSlot key rule = none) :=
  ⟨addCardinal_missing_core t key text rule ov hcr hc hmiss,
   addOrdinal_missing_core t key text rule ov hor ho hmiss,
   addRange_missingZero_core t key text rule ov hrr hra hmiss,
   addRange_missingOne_core t key text2 rule ov i0 hrr hra hz2 hm2⟩

/-- C3 witness: concrete instantiation on a fresh store for locSimple. -/
theorem c3_failed_add_slot_empty_witness :
    (((newTranslator locSimple).AddCardinal (.str "k".data) noPhText .other false).2 =
        some (.cardinalTranslation (.paramNotFound paramZero
          (newTranslator locSimple).loc.name "k".data noPhText)) ∧
      ((newTranslator locSimple).AddCardinal (.str "k".data) noPhText
          .other false).1.cardinalSlot "k".data .other = none) ∧
    (((newTranslator locSimple).AddOrdinal (.str "k".data) noPhText .other false).2 =
        some (.ordinalTranslation (.paramNotFound paramZero
          (newTranslator locSimple).loc.name "k".data noPhText)) ∧
      ((newTranslator locSimple).AddOrdinal (.str "k".data) noPhText
          .other false).1.ordinalSlot "k".data .other = none) ∧
    (((newTranslator locSimple).AddRange (.str "k".data) noPhText .other false).2 =
        some (.rangeTranslation (.paramNotFound paramZero
          (newTranslator locSimple).loc.name "k".data noPhText)) ∧
      ((newTranslator locSimple).AddRange (.str "k".data) noPhText
          .other false).1.rangeSlot "k".data .other = none) ∧
    (((newTranslator locSimple).AddRange (.str "k".data) zeroOnlyText .other false).2 =
        some (.rangeTranslation (.paramNotFound paramOne
          (newTranslator locSimple).loc.name "k".data zeroOnlyText)) ∧
      ((newTranslator locSimple).AddRange (.str "k".data) zeroOnlyText
          .other false).1.rangeSlot "k".data .other = none) :=
  c3_failed_add_slot_empty (newTranslator locSimple) "k".data noPhText zeroOnlyText
    .other false 0 (by decide) (by decide) (by decide) (by decide) (by decide)
    (by decide) (Or.inl (by decide)) (Or.inl (by decide)) (Or.inl (by decide))

/-- C5 counterexample: AddCardinal with the unbalanced text "a \x7b0" does
not fail with MissingBrace; it fails with the cardinal translation error,
because the plural Add functions never count braces. -/
theorem c5_counterexample :
    ((newTranslator locSimple).AddCardinal (.str "k".data) unbalText
        .other false).2 =
      some (.cardinalTranslation (.paramNotFound paramZero "en".data "k".data
        unbalText)) := by
  decide

/-- C5 (amended): only the plain Add validates brace balance; with the key
free (or override set) an unbalanced text fails Add with MissingBrace, while
the three plural Add functions perform no brace check at all and fail with
their category-specific parameter-not-found error whenever the zero
placeholder is absent, balanced or not. -/
theorem c5_brace_validation (t : Translator) (key text : Str) (rule : PluralRule)
    (ov : Bool)
    (hpass : alLookup t.translations (.str key) = none ∨ ov = true)
    (hub : countChar text '{' ≠ countChar text '}')
    (hmiss : strIndex text paramZero = none)
    (hcr : rule ∈ t.loc.pluralsCardinal) (hor : rule ∈ t.loc.pluralsOrdinal)
    (hrr : rule ∈ t.loc.pluralsRange)
    (hc : t.cardinalSlot key rule = none ∨ ov = true)
    (ho : t.ordinalSlot key rule = none ∨ ov = true)
    (hra : t.rangeSlot key rule = none ∨ ov = true) :
    (t.Add (.str key) text ov).2 =
      some (.missingBrace t.loc.name (.str key) text) ∧
    (t.AddCardinal (.str key) text rule ov).2 =
      some (.cardinalTranslation (.paramNotFound paramZero t.loc.name key text)) ∧
    (t.AddOrdinal (.str key) text rule ov).2 =
      some (.ordinalTranslation (.paramNotFound paramZero t.loc.name key text)) ∧
    (t.AddRange (.str key) text rule ov).2 =
      some (.rangeTranslation (.paramNotFound paramZero t.loc.name key text)) := by
  refine ⟨?_, (addCardinal_missing_core t key text rule ov hcr hc hmiss).1,
    (addOrdinal_missing_core t key text rule ov hor ho hmiss).1,
    (addRange_missingZero_core t key text rule ov hrr hra hmiss).1⟩
  rw [Add_missingBrace t key text ov hpass hub]

/-- C5 witness: the amended statement instantiated on the text "a \x7b0". -/
theorem c5_brace_validation_witness :
    ((newTranslator locSimple).Add (.str "k".data) unbalText false).2 =
      some (.missingBrace (newTranslator locSimple).loc.name (.str "k".data)
        unbalText) ∧
    ((newTranslator locSimple).AddCardinal (.str "k".data) unbalText .other false).2 =
      some (.cardinalTranslation (.paramNotFound paramZero
        (newTranslator locSimple).loc.name "k".data unbalText)) ∧
    ((newTranslator locSimple).AddOrdinal (.str "k".data) unbalText .other false).2 =
      some (.ordinalTranslation (.paramNotFound paramZero
        (newTranslator locSimple).loc.name "k".data unbalText)) ∧
    ((newTranslator locSimple).AddRange (.str "k".data) unbalText .other false).2 =
      some (.rangeTranslation (.paramNotFound paramZero
        (newTranslator locSimple).loc.name "k".data unbalText)) :=
  c5_brace_validation (newTranslator locSimple) "k".data unbalText .other false
    (Or.inl (by decide)) (by decide) (by decide) (by decide) (by decide) (by decide)
    (Or.inl (by decide)) (Or.inl (by decide)) (Or.inl (by decide))

/-- C8 counterexample: AddRange accepts a text whose one placeholder sits at
the very start (offset 0), contradicting the claim that such a text is
rejected. -/
theorem c8_counterexample :
    ((newTranslator locSimple).AddRange (.str "k".data) rangeTextOneFirst
        .other false).2 = none ∧
    strIndex rangeTextOneFirst paramOne = some 0 := by
  decide

/-- C8 (amended): with a valid rule and no blocking conflict, AddRange
succeeds exactly when the text contains both the zero and the one
placeholder; on success the stored entry's two offset pairs locate them at
their first occurrences — but the position of the one placeholder is not
constrained, so it may sit anywhere, including at the text's start. -/
theorem c8_addRange_placeholders (t : Translator) (key text : Str)
    (rule : PluralRule) (ov : Bool) (hr : rule ∈ t.loc.pluralsRange)
    (hc : t.rangeSlot key rule = none ∨ ov = true) :
    ((t.AddRange (.str key) text rule ov).2 = none ↔
      (strIndex text paramZero).isSome = true ∧
      (strIndex text paramOne).isSome = true) ∧
    (∀ i0 i1, strIndex text paramZero = some i0 → strIndex text paramOne = some i1 →
      (t.AddRange (.str key) text rule ov).1.rangeSlot key rule =
        some ⟨text, [i0, i0 + paramZero.length, i1, i1 + paramOne.length]⟩) := by
  rcases hz : strIndex text paramZero with _ | i0
  · have hcore := addRange_missingZero_core t key text rule ov hr hc hz
    refine ⟨⟨fun h => ?_, fun h => ?_⟩, fun i0 i1 h1 _ => ?_⟩
    · rw [hcore.1] at h
      exact Option.noConfusion h
    · simp at h
    · exact Option.noConfusion h1
  · rcases hone : strIndex text paramOne with _ | i1
    · have hcore := addRange_missingOne_core t key text rule ov i0 hr hc hz hone
      refine ⟨⟨fun h => ?_, fun h => ?_⟩, fun j0 j1 _ h2 => ?_⟩
      · rw [hcore.1] at h
        exact Option.noConfusion h
      · simp at h
      · exact Option.noConfusion h2
    · have hcore := addRange_success_core t key text rule ov i0 i1 hr hc hz hone
      refine ⟨⟨fun _ => ⟨rfl, rfl⟩, fun _ => hcore.1⟩, fun j0 j1 h1 h2 => ?_⟩
      cases h1
      cases h2
      exact hcore.2

/-- C8 witness: the amended statement instantiated on the in-order range
text, exercising both directions. -/
theorem c8_addRange_placeholders_witness :
    (((newTranslator locSimple).AddRange (.str "k".data) rangeText
        .other false).2 = none ↔
      (strIndex rangeText paramZero).isSome = true ∧
      (strIndex rangeText paramOne).isSome = true) ∧
    ((newTranslator locSimple).AddRange (.str "k".data) rangeText
        .other false).1.rangeSlot "k".data .other =
      some ⟨rangeText, [0, 0 + paramZero.length, 4, 4 + paramOne.length]⟩ := by
  have h := c8_addRange_placeholders (newTranslator locSimple) "k".data rangeText
    .other false (by decide) (Or.inl (by decide))
  exact ⟨h.1, h.2 0 4 (by decide) (by decide)⟩

/-- C9: for every plural category, when the slot at (key, rule) already
holds a previously added valid entry and the Add is repeated with override
set but a text missing the required placeholder, the call returns the
category-specific error and leaves the slot empty: the old entry is erased,
not restored. -/
theorem c9_override_failure_erases (t : Translator) (key text text2 : Str)
    (rule : PluralRule) (i0 : Nat) (oldC oldO oldR : TransText)
    (hmiss : strIndex text paramZero = none)
    (hz2 : strIndex text2 paramZero = some i0)
    (hm2 : strIndex text2 paramOne = none)
    (hcr : rule ∈ t.loc.pluralsCardinal) (hor : rule ∈ t.loc.pluralsOrdinal)
    (hrr : rule ∈ t.loc.pluralsRange)
    (hc : t.cardinalSlot key rule = some oldC)
    (ho : t.ordinalSlot key rule = some oldO)
    (hra : t.rangeSlot key rule = some oldR) :
    ((t.AddCardinal (.str key) text rule true).2 =
        some (.cardinalTranslation (.paramNotFound paramZero t.loc.name key text)) ∧
      (t.AddCardinal (.str key) text rule true).1.cardinalSlot key rule = none) ∧
    ((t.AddOrdinal (.str key) text rule true).2 =
        some (.ordinalTranslation (.paramNotFound paramZero t.loc.name key text)) ∧
      (t.AddOrdinal (.str key) text rule true).1.ordinalSlot key rule = none) ∧
    ((t.AddRange (.str key) text rule true).2 =
        some (.rangeTranslation (.paramNotFound paramZero t.loc.name key text)) ∧
      (t.AddRange (.str key) text rule true).1.rangeSlot key rule = none) ∧
    ((t.AddRange (.str key) text2 rule true).2 =
        some (.rangeTranslation (.paramNotFound paramOne t.loc.name key text2)) ∧
      (t.AddRange (.str key) text2 rule true).1.rangeSlot key rule = none) :=
  ⟨addCardinal_missing_core t key text rule true hcr (Or.inr rfl) hmiss,
   addOrdinal_missing_core t key text rule true hor (Or.inr rfl) hmiss,
   addRange_missingZero_core t key text rule true hrr (Or.inr rfl) hmiss,
   addRange_missingOne_core t key text2 rule true i0 hrr (Or.inr rfl) hz2 hm2⟩

/-- C9 witness: instantiation on a store with valid entries at
(k, other) in all three plural categories. -/
theorem c9_override_failure_erases_witness :
    ((c9Base.AddCardinal (.str "k".data) noPhText .other true).2 =
        some (.cardinalTranslation (.paramNotFound paramZero c9Base.loc.name
          "k".data noPhText)) ∧
      (c9Base.AddCardinal (.str "k".data) noPhText .other true).1.cardinalSlot
        "k".data .other = none) ∧
    ((c9Base.AddOrdinal (.str "k".data) noPhText .other true).2 =
        some (.ordinalTranslation (.paramNotFound paramZero c9Base.loc.name
          "k".data noPhText)) ∧
      (c9Base.AddOrdinal (.str "k".data) noPhText .other true).1.ordinalSlot
        "k".data .other = none) ∧
    ((c9Base.AddRange (.str "k".data) noPhText .other true).2 =
        some (.rangeTranslation (.paramNotFound paramZero c9Base.loc.name
          "k".data noPhText)) ∧
      (c9Base.AddRange (.str "k".data) noPhText .other true).1.rangeSlot
        "k".data .other = none) ∧
    ((c9Base.AddRange (.str "k".data) zeroOnlyText .other true).2 =
        some (.rangeTranslation (.paramNotFound paramOne c9Base.loc.name
          "k".data zeroOnlyText)) ∧
      (c9Base.AddRange (.str "k".data) zeroOnlyText .other true).1.rangeSlot
        "k".data .other = none) :=
  c9_override_failure_erases c9Base "k".data noPhText zeroOnlyText .other 0
    ⟨zeroOnlyText, [0, 0 + paramZero.length]⟩
    ⟨zeroOnlyText, [0, 0 + paramZero.length]⟩
    ⟨rangeText, [0, 0 + paramZero.length, 4, 4 + paramOne.length]⟩
    (by decide) (by decide) (by decide) (by decide) (by decide) (by decide)
    (by decide) (by decide) (by decide)

/-! ### Claim C6 -/

/-- C6: conflict policy of the Add family.  With an existing entry at the
key (plain) or at the (key, rule) pair (plural categories) and override
false, every Add fails with ConflictingTranslation — carrying the offending
rule for the plural variants — and leaves the store untouched; with
override true the old entry is replaced and the new text is what
subsequently renders. -/
theorem c6_conflict_policy (t : Translator) (key textP textC textR : Str)
    (rule : PluralRule) (idxs : List Nat) (iC iR0 iR1 : Nat)
    (eOld oldC oldO oldR : TransText)
    (hpe : t.plainEntry key = some eOld)
    (hcs : t.cardinalSlot key rule = some oldC)
    (hos : t.ordinalSlot key rule = some oldO)
    (hrs : t.rangeSlot key rule = some oldR)
    (hcr : rule ∈ t.loc.pluralsCardinal) (hor : rule ∈ t.loc.pluralsOrdinal)
    (hrr : rule ∈ t.loc.pluralsRange)
    (hbal : countChar textP '{' = countChar textP '}')
    (hloop : plainLoop textP t.loc.name key (List.range (countChar textP '{')) =
      .ok idxs)
    (hzC : strIndex textC paramZero = some iC)
    (hzR : strIndex textR paramZero = some iR0)
    (hoR : strIndex textR paramOne = some iR1)
    (hord : iR0 + paramZero.length ≤ iR1) :
    t.Add (.str key) textP false =
      (t, some (.conflictingTranslation t.loc.name key .unknown textP)) ∧
    t.AddCardinal (.str key) textC rule false =
      (t, some (.conflictingTranslation t.loc.name key rule textC)) ∧
    t.AddOrdinal (.str key) textC rule false =
      (t, some (.conflictingTranslation t.loc.name key rule textC)) ∧
    t.AddRange (.str key) textR rule false =
      (t, some (.conflictingTranslation t.loc.name key rule textR)) ∧
    ((t.Add (.str key) textP true).2 = none ∧
      (t.Add (.str key) textP true).1.plainEntry key = some ⟨textP, idxs⟩ ∧
      ∀ ps, (t.Add (.str key) textP true).1.T (.str key) ps =
        spliceLoop textP 0 idxs ps) ∧
    ((t.AddCardinal (.str key) textC rule true).2 = none ∧
      (t.AddCardinal (.str key) textC rule true).1.cardinalSlot key rule =
        some ⟨textC, [iC, iC + paramZero.length]⟩ ∧
      ∀ num digits param, t.loc.cardinalPluralRule num digits = rule →
        (t.AddCardinal (.str key) textC rule true).1.C (.str key) num digits param =
          .ok (textC.take iC ++ param ++ textC.drop (iC + paramZero.length))) ∧
    ((t.AddOrdinal (.str key) textC rule true).2 = none ∧
      (t.AddOrdinal (.str key) textC rule true).1.ordinalSlot key rule =
        some ⟨textC, [iC, iC + paramZero.length]⟩ ∧
      ∀ num digits param, t.loc.ordinalPluralRule num digits = rule →
        (t.AddOrdinal (.str key) textC rule true).1.O (.str key) num digits param =
          .ok (textC.take iC ++ param ++ textC.drop (iC + paramZero.length))) ∧
    ((t.AddRange (.str key) textR rule true).2 = none ∧
      (t.AddRange (.str key) textR rule true).1.rangeSlot key rule =
        some ⟨textR, [iR0, iR0 + paramZero.length, iR1, iR1 + paramOne.length]⟩ ∧
      ∀ n1 d1 n2 d2 p1 p2, t.loc.rangePluralRule n1 d1 n2 d2 = rule →
        (t.AddRange (.str key) textR rule true).1.R (.str key) n1 d1 n2 d2 p1 p2 =
          .ok (textR.take iR0 ++ p1 ++ slice textR (iR0 + paramZero.length) iR1 ++
            p2 ++ textR.drop (iR1 + paramOne.length))) := by
  have hCle := strIndex_add_length_le textC paramZero iC hzC
  have hCle0 : iC ≤ textC.length := le_trans (Nat.le_add_right _ _) hCle
  have hR0le := strIndex_add_length_le textR paramZero iR0 hzR
  have hR1le := strIndex_add_length_le textR paramOne iR1 hoR
  have hR1le0 : iR1 ≤ textR.length := le_trans (Nat.le_add_right _ _) hR1le
  refine ⟨Add_conflict t key textP eOld hpe,
    AddCardinal_conflict t key textC rule oldC hcr hcs,
    AddOrdinal_conflict t key textC rule oldO hor hos,
    AddRange_conflict t key textR rule oldR hrr hrs, ?_, ?_, ?_, ?_⟩
  · rw [Add_success t key textP true idxs (Or.inr rfl) hbal hloop]
    refine ⟨rfl, ?_, fun ps => ?_⟩
    · simp [Translator.plainEntry, alLookup_alInsert_self]
    · simp [Translator.T, alLookup_alInsert_self]
  · rw [AddCardinal_override_state t key textC rule iC hcr hzC]
    refine ⟨rfl, ?_, fun num digits param hsel => ?_⟩
    · simp [Translator.cardinalSlot, alLookup_alInsert_self, Slots.set_self]
    · simp only [Translator.C, alLookup_alInsert_self, hsel, Slots.set_self]
      rw [if_pos ⟨hCle0, hCle⟩]
  · rw [AddOrdinal_override_state t key textC rule iC hor hzC]
    refine ⟨rfl, ?_, fun num digits param hsel => ?_⟩
    · simp [Translator.ordinalSlot, alLookup_alInsert_self, Slots.set_self]
    · simp only [Translator.O, alLookup_alInsert_self, hsel, Slots.set_self]
      rw [if_pos ⟨hCle0, hCle⟩]
  · rw [AddRange_override_state t key textR rule iR0 iR1 hrr hzR hoR]
    refine ⟨rfl, ?_, fun n1 d1 n2 d2 p1 p2 hsel => ?_⟩
    · simp [Translator.rangeSlot, alLookup_alInsert_self, Slots.set_self]
    · simp only [Translator.R, alLookup_alInsert_self, hsel, Slots.set_self]
      rw [if_pos ⟨le_trans (Nat.le_add_right _ _) (le_trans hord hR1le0), hord,
        hR1le0, hR1le⟩]

/-- C6 witness: instantiation on a store with plain, cardinal, ordinal and
range entries at key k, with the render equations applied at concrete
arguments. -/
theorem c6_conflict_policy_witness :
    c6Base.Add (.str "k".data) zeroOnlyText false =
      (c6Base, some (.conflictingTranslation c6Base.loc.name "k".data .unknown
        zeroOnlyText)) ∧
    c6Base.AddCardinal (.str "k".data) zeroOnlyText .other false =
      (c6Base, some (.conflictingTranslation c6Base.loc.name "k".data .other
        zeroOnlyText)) ∧
    c6Base.AddOrdinal (.str "k".data) zeroOnlyText .other false =
      (c6Base, some (.conflictingTranslation c6Base.loc.name "k".data .other
        zeroOnlyText)) ∧
    c6Base.AddRange (.str "k".data) rangeText .other false =
      (c6Base, some (.conflictingTranslation c6Base.loc.name "k".data .other
        rangeText)) ∧
    ((c6Base.Add (.str "k".data) zeroOnlyText true).2 = none ∧
      (c6Base.Add (.str "k".data) zeroOnlyText true).1.plainEntry "k".data =
        some ⟨zeroOnlyText, [0, 0 + (placeholder 0).length]⟩ ∧
      (c6Base.Add (.str "k".data) zeroOnlyText true).1.T (.str "k".data)
        ["one".data] =
        spliceLoop zeroOnlyText 0 [0, 0 + (placeholder 0).length] ["one".data]) ∧
    ((c6Base.AddCardinal (.str "k".data) zeroOnlyText .other true).2 = none ∧
      (c6Base.AddCardinal (.str "k".data) zeroOnlyText .other true).1.cardinalSlot
        "k".data .other = some ⟨zeroOnlyText, [0, 0 + paramZero.length]⟩ ∧
      (c6Base.AddCardinal (.str "k".data) zeroOnlyText .other true).1.C
        (.str "k".data) 2 0 "2".data =
        .ok (zeroOnlyText.take 0 ++ "2".data ++
          zeroOnlyText.drop (0 + paramZero.length))) ∧
    ((c6Base.AddOrdinal (.str "k".data) zeroOnlyText .other true).2 = none ∧
      (c6Base.AddOrdinal (.str "k".data) zeroOnlyText .other true).1.ordinalSlot
        "k".data .other = some ⟨zeroOnlyText, [0, 0 + paramZero.length]⟩ ∧
      (c6Base.AddOrdinal (.str "k".data) zeroOnlyText .other true).1.O
        (.str "k".data) 2 0 "2".data =
        .ok (zeroOnlyText.take 0 ++ "2".data ++
          zeroOnlyText.drop (0 + paramZero.length))) ∧
    ((c6Base.AddRange (.str "k".data) rangeText .other true).2 = none ∧
      (c6Base.AddRange (.str "k".data) rangeText .other true).1.rangeSlot
        "k".data .other =
        some ⟨rangeText, [0, 0 + paramZero.length, 4, 4 + paramOne.length]⟩ ∧
      (c6Base.AddRange (.str "k".data) rangeText .other true).1.R
        (.str "k".data) 1 0 2 0 "1".data "2".data =
        .ok (rangeText.take 0 ++ "1".data ++
          slice rangeText (0 + paramZero.length) 4 ++ "2".data ++
          rangeText.drop (4 + paramOne.length))) := by
  have h := c6_conflict_policy c6Base "k".data zeroOnlyText zeroOnlyText rangeText
    .other [0, 0 + (placeholder 0).length] 0 0 4
    ⟨"hello".data, []⟩ ⟨zeroOnlyText, [0, 0 + paramZero.length]⟩
    ⟨zeroOnlyText, [0, 0 + paramZero.length]⟩
    ⟨rangeText, [0, 0 + paramZero.length, 4, 4 + paramOne.length]⟩
    (by decide) (by decide) (by decide) (by decide) (by decide) (by decide)
    (by decide) (by decide) (by decide) (by decide) (by decide) (by decide)
    (by decide)
  obtain ⟨h1, h2, h3, h4, ⟨h5a, h5b, h5c⟩, ⟨h6a, h6b, h6c⟩, ⟨h7a, h7b, h7c⟩,
    ⟨h8a, h8b, h8c⟩⟩ := h
  exact ⟨h1, h2, h3, h4, ⟨h5a, h5b, h5c ["one".data]⟩,
    ⟨h6a, h6b, h6c 2 0 "2".data (by decide)⟩,
    ⟨h7a, h7b, h7c 2 0 "2".data (by decide)⟩,
    ⟨h8a, h8b, h8c 1 0 2 0 "1".data "2".data (by decide)⟩⟩

/-! ### Claim C10 -/

/-- C10: T performs no arity check on its parameter list.  For every plain
entry stored by a successful Add whose template contains at least one
placeholder, calling T with fewer parameters than placeholders (here: none)
returns no error value: the loop indexes past the end of the parameter
list, hitting the out-of-bounds branch of the embedding. -/
theorem c10_t_no_arity_check (t t' : Translator) (key text : Str) (ov : Bool)
    (hadd : t.Add (.str key) text ov = (t', none))
    (hp : 1 ≤ countChar text '{') :
    t'.T (.str key) [] = .panicked .indexOutOfRange := by
  simp only [Translator.Add] at hadd
  split at hadd
  · exact absurd (congrArg Prod.snd hadd) (by simp)
  · split at hadd
    · exact absurd (congrArg Prod.snd hadd) (by simp)
    · split at hadd
      · exact absurd (congrArg Prod.snd hadd) (by simp)
      · rename_i idxs hloop
        obtain ⟨m, hm⟩ : ∃ m, countChar text '{' = m + 1 :=
          ⟨countChar text '{' - 1, by omega⟩
        rw [hm, List.range_succ_eq_map] at hloop
        simp only [plainLoop] at hloop
        split at hloop
        · exact Except.noConfusion hloop
        · rename_i i0 hz
          split at hloop
          · exact Except.noConfusion hloop
          · rename_i l' hrest
            have hidxs : idxs = i0 :: (i0 + (placeholder 0).length) :: l' := by
              cases hloop
              rfl
            have ht' : t' =
                { t with translations :=
                    alInsert t.translations (.str key) ⟨text, idxs⟩ } :=
              (congrArg Prod.fst hadd).symm
            subst ht'
            subst hidxs
            unfold Translator.T
            simp only [alLookup_alInsert_self]
            unfold spliceLoop
            rw [if_pos ⟨Nat.zero_le i0, strIndex_le_length text (placeholder 0) i0 hz⟩]

/-- C10 witness: a stored one-placeholder template rendered with no
parameters hits the out-of-bounds branch. -/
theorem c10_t_no_arity_check_witness :
    1 ≤ countChar zeroOnlyText '{' ∧
    ((newTranslator locSimple).Add (.str "k".data) zeroOnlyText false).1.T
      (.str "k".data) [] = .panicked .indexOutOfRange :=
  ⟨by decide, c10_t_no_arity_check (newTranslator locSimple)
    ((newTranslator locSimple).Add (.str "k".data) zeroOnlyText false).1
    "k".data zeroOnlyText false rfl (by decide)⟩

/-! ### Claim C7 -/

/-- C7: during import the first Add-family error aborts the whole run — the
records after the failing one are never applied, the error is returned to
the caller, and the store keeps every entry committed by the earlier
successful Add calls of the same batch (no rollback). -/
theorem c7_import_first_error_aborts (ut ut1 ut2 : UniversalTranslator)
    (rs1 rs2 : Translations) (key : Str) (rec : Translation) (e : Err)
    (h1 : ut.importRecords rs1 = (ut1, none))
    (h2 : ut1.applyRecord key rec = (ut2, some e)) :
    ut.importRecords (rs1 ++ (key, rec) :: rs2) = (ut2, some e) := by
  induction rs1 generalizing ut with
  | nil =>
    simp only [UniversalTranslator.importRecords] at h1
    injection h1 with hu _
    subst hu
    simp only [List.nil_append, UniversalTranslator.importRecords, h2]
  | cons p rest ih =>
    obtain ⟨k0, r0⟩ := p
    rw [List.cons_append]
    simp only [UniversalTranslator.importRecords] at h1 ⊢
    cases ha : ut.applyRecord k0 r0 with
    | mk ut' res =>
      rw [ha] at h1
      cases res with
      | none => exact ih ut' h1
      | some e' => exact absurd (congrArg Prod.snd h1) (by simp)

/-- C7 witness: a three-record batch whose middle record fails; the result
is the first error together with the state reached just before it. -/
theorem c7_import_first_error_aborts_witness :
    (NewUniversalTranslator locSimple [locSimple]).importRecords
        ([("a".data, plainRec "hi".data)] ++ ("b".data, plainRec unbalText) ::
          [("c".data, plainRec "yo".data)]) =
      ((((NewUniversalTranslator locSimple [locSimple]).importRecords
          [("a".data, plainRec "hi".data)]).1.applyRecord "b".data
          (plainRec unbalText)).1,
       some (.missingBrace "en".data (.str "b".data) unbalText)) :=
  c7_import_first_error_aborts (NewUniversalTranslator locSimple [locSimple])
    ((NewUniversalTranslator locSimple [locSimple]).importRecords
      [("a".data, plainRec "hi".data)]).1
    (((NewUniversalTranslator locSimple [locSimple]).importRecords
      [("a".data, plainRec "hi".data)]).1.applyRecord "b".data
      (plainRec unbalText)).1
    [("a".data, plainRec "hi".data)] [("c".data, plainRec "yo".data)]
    "b".data (plainRec unbalText)
    (.missingBrace "en".data (.str "b".data) unbalText) rfl rfl

/-! ### Claim C4 -/

theorem catComplete_cons (rules : List PluralRule) (p : GoValue × Slots)
    (rest : List (GoValue × Slots)) :
    catComplete rules (p :: rest) ↔
      (∀ r ∈ rules, (p.2 r).isSome = true) ∧ catComplete rules rest := by
  simp [catComplete, List.forall_mem_cons]

theorem verifyCat_none_iff (locName : Str) (rules : List PluralRule)
    (tType : Str) (m : List (GoValue × Slots)) (hk : strKeysB m = true) :
    verifyCat locName rules tType m = none ↔ catComplete rules m := by
  induction m with
  | nil => simp [verifyCat, catComplete]
  | cons p rest ih =>
    obtain ⟨k, arr⟩ := p
    simp only [strKeysB, List.all_cons, Bool.and_eq_true] at hk
    cases k with
    | nonString tag => simp at hk
    | str key =>
      have hrest : strKeysB rest = true := hk.2
      rw [catComplete_cons]
      simp only [verifyCat]
      cases hf : rules.find? (fun r => (arr r).isNone) with
      | some r =>
        have hmem := List.mem_of_find?_eq_some hf
        have hprop := List.find?_some hf
        simp only [Option.isNone_iff_eq_none, decide_eq_true_eq] at hprop
        constructor
        · intro h
          exact Option.noConfusion h
        · intro hcomp
          have := hcomp.1 r hmem
          rw [hprop] at this
          simp at this
      | none =>
        have hall : ∀ r ∈ rules, (arr r).isSome = true := by
          intro r hr
          have := List.find?_eq_none.mp hf r hr
          simp only [Option.isNone_iff_eq_none, decide_eq_true_eq] at this
          simpa [Option.isSome_iff_ne_none] using this
        rw [ih hrest]
        exact ⟨fun h => ⟨hall, h⟩, fun h => h.2⟩

theorem verifyCat_some_shape (locName : Str) (rules : List PluralRule)
    (tType : Str) (m : List (GoValue × Slots)) (hk : strKeysB m = true) (e : Err)
    (h : verifyCat locName rules tType m = some e) :
    ∃ key rule, e = .missingPluralTranslation locName key rule tType ∧
      rule ∈ rules ∧ ∃ arr, (GoValue.str key, arr) ∈ m ∧ arr rule = none := by
  induction m with
  | nil => simp [verifyCat] at h
  | cons p rest ih =>
    obtain ⟨k, arr⟩ := p
    simp only [strKeysB, List.all_cons, Bool.and_eq_true] at hk
    cases k with
    | nonString tag => simp at hk
    | str key =>
      simp only [verifyCat] at h
      cases hf : rules.find? (fun r => (arr r).isNone) with
      | some r =>
        rw [hf] at h
        have hmem := List.mem_of_find?_eq_some hf
        have hprop := List.find?_some hf
        simp only [Option.isNone_iff_eq_none, decide_eq_true_eq] at hprop
        injection h with he
        exact ⟨key, r, he.symm, hmem, arr, List.mem_cons_self _ _, hprop⟩
      | none =>
        rw [hf] at h
        obtain ⟨key', rule', he, hr, arr', hm, hn⟩ := ih hk.2 h
        exact ⟨key', rule', he, hr, arr', List.mem_cons_of_mem _ hm, hn⟩

/-- C4: VerifyTranslations succeeds exactly when, in each of the cardinal,
ordinal and range maps, every stored key populates every rule of the
locale's list for that category; and any failure is a
MissingPluralTranslation error naming the locale, an actually empty
mandatory slot's key and rule, and the category tag the code uses
(plural, ordinal or range). -/
theorem c4_verify_iff (t : Translator)
    (hk1 : strKeysB t.cardinalTanslations = true)
    (hk2 : strKeysB t.ordinalTanslations = true)
    (hk3 : strKeysB t.rangeTanslations = true) :
    (t.VerifyTranslations = none ↔
      (catComplete t.loc.pluralsCardinal t.cardinalTanslations ∧
       catComplete t.loc.pluralsOrdinal t.ordinalTanslations ∧
       catComplete t.loc.pluralsRange t.rangeTanslations)) ∧
    (∀ e, t.VerifyTranslations = some e →
      ∃ key rule tt, e = .missingPluralTranslation t.loc.name key rule tt ∧
        ((tt = "plural".data ∧ rule ∈ t.loc.pluralsCardinal ∧
            ∃ arr, (GoValue.str key, arr) ∈ t.cardinalTanslations ∧
              arr rule = none) ∨
         (tt = "ordinal".data ∧ rule ∈ t.loc.pluralsOrdinal ∧
            ∃ arr, (GoValue.str key, arr) ∈ t.ordinalTanslations ∧
              arr rule = none) ∨
         (tt = "range".data ∧ rule ∈ t.loc.pluralsRange ∧
            ∃ arr, (GoValue.str key, arr) ∈ t.rangeTanslations ∧
              arr rule = none))) := by
  have hC := verifyCat_none_iff t.loc.name t.loc.pluralsCardinal "plural".data
    t.cardinalTanslations hk1
  have hO := verifyCat_none_iff t.loc.name t.loc.pluralsOrdinal "ordinal".data
    t.ordinalTanslations hk2
  have hR := verifyCat_none_iff t.loc.name t.loc.pluralsRange "range".data
    t.rangeTanslations hk3
  unfold Translator.VerifyTranslations
  cases h1 : verifyCat t.loc.name t.loc.pluralsCardinal "plural".data
      t.cardinalTanslations with
  | some e1 =>
    refine ⟨⟨fun h => Option.noConfusion h, fun hcomp => ?_⟩, fun e he => ?_⟩
    · rw [hC.mpr hcomp.1] at h1
      exact Option.noConfusion h1
    · injection he with he'
      subst he'
      obtain ⟨key, rule, hsh, hr, arr, hm, hn⟩ :=
        verifyCat_some_shape t.loc.name t.loc.pluralsCardinal "plural".data
          t.cardinalTanslations hk1 e1 h1
      exact ⟨key, rule, "plural".data, hsh, Or.inl ⟨rfl, hr, arr, hm, hn⟩⟩
  | none =>
    have hcc := hC.mp h1
    cases h2 : verifyCat t.loc.name t.loc.pluralsOrdinal "ordinal".data
        t.ordinalTanslations with
    | some e2 =>
      refine ⟨⟨fun h => Option.noConfusion h, fun hcomp => ?_⟩, fun e he => ?_⟩
      · rw [hO.mpr hcomp.2.1] at h2
        exact Option.noConfusion h2
      · injection he with he'
        subst he'
        obtain ⟨key, rule, hsh, hr, arr, hm, hn⟩ :=
          verifyCat_some_shape t.loc.name t.loc.pluralsOrdinal "ordinal".data
            t.ordinalTanslations hk2 e2 h2
        exact ⟨key, rule, "ordinal".data, hsh, Or.inr (Or.inl ⟨rfl, hr, arr, hm, hn⟩)⟩
    | none =>
      have hco := hO.mp h2
      refine ⟨?_, fun e he => ?_⟩
      · rw [hR]
        exact ⟨fun h => ⟨hcc, hco, h⟩, fun h => h.2.2⟩
      · obtain ⟨key, rule, hsh, hr, arr, hm, hn⟩ :=
          verifyCat_some_shape t.loc.name t.loc.pluralsRange "range".data
            t.rangeTanslations hk3 e he
        exact ⟨key, rule, "range".data, hsh, Or.inr (Or.inr ⟨rfl, hr, arr, hm, hn⟩)⟩

/-- C4 witness: the verification scenario — a locale requiring one and
other for cardinals with key days populated only at other fails verify
reporting the missing one rule for days. -/
theorem c4_verify_iff_witness :
    (c4Store.VerifyTranslations = none ↔
      (catComplete c4Store.loc.pluralsCardinal c4Store.cardinalTanslations ∧
       catComplete c4Store.loc.pluralsOrdinal c4Store.ordinalTanslations ∧
       catComplete c4Store.loc.pluralsRange c4Store.rangeTanslations)) ∧
    (∃ key rule tt,
      Err.missingPluralTranslation "en".data "days".data .one "plural".data =
        .missingPluralTranslation c4Store.loc.name key rule tt ∧
      ((tt = "plural".data ∧ rule ∈ c4Store.loc.pluralsCardinal ∧
          ∃ arr, (GoValue.str key, arr) ∈ c4Store.cardinalTanslations ∧
            arr rule = none) ∨
       (tt = "ordinal".data ∧ rule ∈ c4Store.loc.pluralsOrdinal ∧
          ∃ arr, (GoValue.str key, arr) ∈ c4Store.ordinalTanslations ∧
            arr rule = none) ∨
       (tt = "range".data ∧ rule ∈ c4Store.loc.pluralsRange ∧
          ∃ arr, (GoValue.str key, arr) ∈ c4Store.rangeTanslations ∧
            arr rule = none))) :=
  have h := c4_verify_iff c4Store (by decide) (by decide) (by decide)
  ⟨h.1, h.2 (.missingPluralTranslation "en".data "days".data .one "plural".data)
    (by decide)⟩

/-! ### Decimal digits: facts about the Itoa model (claim C1) -/

theorem digitChar_not_brace : ∀ d < 10, digitChar d ≠ '{' ∧ digitChar d ≠ '}' := by
  decide

theorem digitChar_inj : ∀ a < 10, ∀ b < 10, digitChar a = digitChar b → a = b := by
  decide

theorem natDigitsAux_irrel (n : Nat) : ∀ f1 f2, n < f1 → n < f2 →
    natDigitsAux f1 n = natDigitsAux f2 n := by
  induction n using Nat.strong_induction_on with
  | _ n ih =>
    intro f1 f2 h1 h2
    cases f1 with
    | zero => omega
    | succ g1 =>
      cases f2 with
      | zero => omega
      | succ g2 =>
        simp only [natDigitsAux]
        by_cases hn : n < 10
        · simp [hn]
        · simp only [if_neg hn]
          have hd : n / 10 < n := Nat.div_lt_self (by omega) (by norm_num)
          rw [ih (n / 10) hd g1 g2 (by omega) (by omega)]

theorem natDigits_lt (n : Nat) (h : n < 10) : natDigits n = [digitChar n] := by
  simp [natDigits, natDigitsAux, h]

theorem natDigits_ge (n : Nat) (h : 10 ≤ n) :
    natDigits n = natDigits (n / 10) ++ [digitChar (n % 10)] := by
  have h1 : natDigits n = natDigitsAux n (n / 10) ++ [digitChar (n % 10)] := by
    simp only [natDigits, natDigitsAux]
    rw [if_neg (show ¬ n < 10 by omega)]
  rw [h1, natDigitsAux_irrel (n / 10) n (n / 10 + 1)
    (Nat.div_lt_self (by omega) (by norm_num)) (by omega)]
  rfl

theorem natDigits_ne_nil (n : Nat) : natDigits n ≠ [] := by
  by_cases h : n < 10
  · rw [natDigits_lt n h]
    simp
  · rw [natDigits_ge n (by omega)]
    simp

theorem mem_natDigits (n : Nat) : ∀ c ∈ natDigits n, ∃ d, d < 10 ∧ c = digitChar d := by
  induction n using Nat.strong_induction_on with
  | _ n ih =>
    intro c hc
    by_cases h : n < 10
    · rw [natDigits_lt n h] at hc
      simp at hc
      exact ⟨n, h, hc⟩
    · rw [natDigits_ge n (by omega)] at hc
      rw [List.mem_append] at hc
      rcases hc with hc | hc
      · exact ih (n / 10) (Nat.div_lt_self (by omega) (by norm_num)) c hc
      · simp at hc
        exact ⟨n % 10, Nat.mod_lt _ (by norm_num), hc⟩

theorem natDigits_no_brace (n : Nat) (c : Char) (hc : c ∈ natDigits n) :
    c ≠ '{' ∧ c ≠ '}' := by
  obtain ⟨d, hd, rfl⟩ := mem_natDigits n c hc
  exact digitChar_not_brace d hd

theorem natDigits_inj (a : Nat) : ∀ b, natDigits a = natDigits b → a = b := by
  induction a using Nat.strong_induction_on with
  | _ a ih =>
    intro b h
    by_cases ha : a < 10
    · by_cases hb : b < 10
      · rw [natDigits_lt a ha, natDigits_lt b hb] at h
        injection h with h1 _
        exact digitChar_inj a ha b hb h1
      · rw [natDigits_lt a ha, natDigits_ge b (by omega)] at h
        have hlen := congrArg List.length h
        simp only [List.length_append, List.length_cons, List.length_nil] at hlen
        exact absurd (List.eq_nil_of_length_eq_zero (by omega))
          (natDigits_ne_nil (b / 10))
    · by_cases hb : b < 10
      · rw [natDigits_ge a (by omega), natDigits_lt b hb] at h
        have hlen := congrArg List.length h
        simp only [List.length_append, List.length_cons, List.length_nil] at hlen
        exact absurd (List.eq_nil_of_length_eq_zero (by omega))
          (natDigits_ne_nil (a / 10))
      · rw [natDigits_ge a (by omega), natDigits_ge b (by omega)] at h
        have hrev := congrArg List.reverse h
        simp only [List.reverse_append, List.reverse_cons, List.reverse_nil,
          List.nil_append, List.singleton_append] at hrev
        injection hrev with h1 h2
        have hmod := digitChar_inj (a % 10) (Nat.mod_lt _ (by norm_num)) (b % 10)
          (Nat.mod_lt _ (by norm_num)) h1
        have hdiv := ih (a / 10) (Nat.div_lt_self (by omega) (by norm_num)) (b / 10)
          (List.reverse_inj.mp h2)
        have hda := Nat.div_add_mod a 10
        have hdb := Nat.div_add_mod b 10
        omega

/-! ### hasPref and strIndex structure lemmas (claim C1) -/

theorem hasPref_append_self (p b : Str) : hasPref p (p ++ b) = true := by
  induction p with
  | nil => rfl
  | cons a as ih => simp [hasPref, ih]

theorem hasPref_cons_ne (a b : Char) (as bs : Str) (h : a ≠ b) :
    hasPref (a :: as) (b :: bs) = false := by
  simp [hasPref, h]

theorem strIndex_append_left (a : Str) (b pat' : Str) (ha : ∀ c ∈ a, c ≠ '{') :
    strIndex (a ++ b) ('{' :: pat') =
      (strIndex b ('{' :: pat')).map (· + a.length) := by
  induction a with
  | nil =>
    simp only [List.nil_append, List.length_nil]
    cases strIndex b ('{' :: pat') <;> simp
  | cons c as ih =>
    have hc : c ≠ '{' := ha c (by simp)
    have hane : ∀ x ∈ as, x ≠ '{' := fun x hx => ha x (by simp [hx])
    rw [List.cons_append]
    show (if hasPref ('{' :: pat') (c :: (as ++ b)) = true then some 0
      else (strIndex (as ++ b) ('{' :: pat')).map (· + 1)) = _
    rw [hasPref_cons_ne '{' c pat' (as ++ b) (Ne.symm hc)]
    simp only [Bool.false_eq_true, if_false]
    rw [ih hane]
    cases strIndex b ('{' :: pat') with
    | none => simp
    | some j =>
      simp only [Option.map_some', List.length_cons]
      congr 1

theorem strIndex_cons_self (c : Char) (p b : Str) :
    strIndex ((c :: p) ++ b) (c :: p) = some 0 := by
  have hp : hasPref (c :: p) (c :: (p ++ b)) = true := hasPref_append_self (c :: p) b
  rw [List.cons_append]
  show (if hasPref (c :: p) (c :: (p ++ b)) = true then some 0
    else (strIndex (p ++ b) (c :: p)).map (· + 1)) = some 0
  rw [hp]
  rfl

theorem digits_prefix_eq (d1 : Str) : ∀ (d2 t : Str), (∀ c ∈ d1, c ≠ '}') →
    (∀ c ∈ d2, c ≠ '}') →
    hasPref (d1 ++ ['}']) (d2 ++ '}' :: t) = true → d1 = d2 := by
  induction d1 with
  | nil =>
    intro d2 t _ h2 hp
    cases d2 with
    | nil => rfl
    | cons c d2' =>
      simp only [List.nil_append, List.cons_append, hasPref, Bool.and_eq_true,
        beq_iff_eq] at hp
      exact absurd hp.1.symm (h2 c (by simp))
  | cons c1 d1' ih =>
    intro d2 t h1 h2 hp
    cases d2 with
    | nil =>
      simp only [List.cons_append, List.nil_append, hasPref, Bool.and_eq_true,
        beq_iff_eq] at hp
      exact absurd hp.1 (h1 c1 (by simp))
    | cons c2 d2' =>
      simp only [List.cons_append, hasPref, Bool.and_eq_true, beq_iff_eq] at hp
      have := ih d2' t (fun c hc => h1 c (by simp [hc]))
        (fun c hc => h2 c (by simp [hc])) hp.2
      rw [hp.1, this]

theorem hasPref_placeholder_ne (i j : Nat) (b : Str) (hij : j ≠ i) :
    hasPref (placeholder j) (placeholder i ++ b) = false := by
  cases hpr : hasPref (placeholder j) (placeholder i ++ b) with
  | false => rfl
  | true =>
    exfalso
    have hform : placeholder i ++ b = '{' :: (natDigits i ++ '}' :: b) := by
      simp [placeholder]
    rw [hform] at hpr
    have hphj : placeholder j = '{' :: (natDigits j ++ ['}']) := rfl
    rw [hphj] at hpr
    simp only [hasPref, Bool.and_eq_true, beq_iff_eq] at hpr
    have hdig := digits_prefix_eq (natDigits j) (natDigits i) b
      (fun c hc => (natDigits_no_brace j c hc).2)
      (fun c hc => (natDigits_no_brace i c hc).2) hpr.2
    exact hij (natDigits_inj j i hdig)

theorem strIndex_placeholder_skip (i j : Nat) (b : Str) (hij : j ≠ i) :
    strIndex (placeholder i ++ b) (placeholder j) =
      (strIndex b (placeholder j)).map (· + (placeholder i).length) := by
  have hform : placeholder i ++ b = '{' :: ((natDigits i ++ ['}']) ++ b) := by
    simp [placeholder]
  have hpr := hasPref_placeholder_ne i j b hij
  rw [hform] at hpr ⊢
  simp only [strIndex, hpr, Bool.false_eq_true, if_false]
  have hphj : placeholder j = '{' :: (natDigits j ++ ['}']) := rfl
  rw [hphj, strIndex_append_left (natDigits i ++ ['}']) b (natDigits j ++ ['}'])
    (by
      intro c hc
      rw [List.mem_append] at hc
      rcases hc with hc | hc
      · exact (natDigits_no_brace i c hc).1
      · simp at hc
        subst hc
        decide)]
  rw [← hphj]
  cases strIndex b (placeholder j) with
  | none => simp
  | some x =>
    simp only [Option.map_some']
    have hlen : (placeholder i).length = (natDigits i ++ ['}']).length + 1 := by
      simp [placeholder]
    rw [hlen]
    congr 1

theorem strIndex_placeholder_self (i : Nat) (b : Str) :
    strIndex (placeholder i ++ b) (placeholder i) = some 0 := by
  have hphi : placeholder i = '{' :: (natDigits i ++ ['}']) := rfl
  rw [hphi]
  exact strIndex_cons_self '{' (natDigits i ++ ['}']) b

/-! ### Template lemmas (claim C1) -/

theorem segsBraceFree_cons (s : Str) (ss : List Str)
    (h : segsBraceFree (s :: ss) = true) :
    (∀ c ∈ s, c ≠ '{' ∧ c ≠ '}') ∧ segsBraceFree ss = true := by
  simp only [segsBraceFree, List.all_cons, Bool.and_eq_true] at h
  refine ⟨fun c hc => ?_, h.2⟩
  have := List.all_eq_true.mp h.1 c hc
  simp only [Bool.and_eq_true, Bool.not_eq_true', beq_eq_false_iff_ne] at this
  exact this

theorem count_noBrace (s : Str) (hs : ∀ c ∈ s, c ≠ '{' ∧ c ≠ '}') :
    countChar s '{' = 0 ∧ countChar s '}' = 0 :=
  ⟨List.count_eq_zero.mpr (fun hc => (hs _ hc).1 rfl),
   List.count_eq_zero.mpr (fun hc => (hs _ hc).2 rfl)⟩

theorem count_placeholder (k : Nat) :
    countChar (placeholder k) '{' = 1 ∧ countChar (placeholder k) '}' = 1 := by
  have h0 : List.count '{' (natDigits k) = 0 :=
    List.count_eq_zero.mpr (fun hc => (natDigits_no_brace k _ hc).1 rfl)
  have h1 : List.count '}' (natDigits k) = 0 :=
    List.count_eq_zero.mpr (fun hc => (natDigits_no_brace k _ hc).2 rfl)
  constructor
  · show List.count '{' ('{' :: (natDigits k ++ ['}'])) = 1
    rw [List.count_cons_self, List.count_append, h0]
    rfl
  · show List.count '}' ('{' :: (natDigits k ++ ['}'])) = 1
    rw [List.count_cons_of_ne (by decide), List.count_append, h1]
    rfl

theorem mkTemplate_count (ss : List Str) : ∀ k, segsBraceFree ss = true →
    countChar (mkTemplate k ss) '{' = ss.length - 1 ∧
    countChar (mkTemplate k ss) '}' = ss.length - 1 := by
  induction ss with
  | nil => intro k _; exact ⟨rfl, rfl⟩
  | cons s ss ih =>
    intro k hb
    obtain ⟨hs, hrest⟩ := segsBraceFree_cons s ss hb
    have hcs := count_noBrace s hs
    cases ss with
    | nil =>
      simp only [mkTemplate, List.length_singleton]
      exact ⟨hcs.1, hcs.2⟩
    | cons s' ss' =>
      have hih := ih (k + 1) hrest
      have hph := count_placeholder k
      simp only [mkTemplate]
      constructor
      · show List.count '{' (s ++ (placeholder k ++ mkTemplate (k + 1) (s' :: ss'))) =
          (s :: s' :: ss').length - 1
        rw [List.count_append, List.count_append]
        have e1 : List.count '{' s = 0 := hcs.1
        have e2 : List.count '{' (placeholder k) = 1 := hph.1
        have e3 : List.count '{' (mkTemplate (k + 1) (s' :: ss')) =
          (s' :: ss').length - 1 := hih.1
        rw [e1, e2, e3]
        simp only [List.length_cons]
        omega
      · show List.count '}' (s ++ (placeholder k ++ mkTemplate (k + 1) (s' :: ss'))) =
          (s :: s' :: ss').length - 1
        rw [List.count_append, List.count_append]
        have e1 : List.count '}' s = 0 := hcs.2
        have e2 : List.count '}' (placeholder k) = 1 := hph.2
        have e3 : List.count '}' (mkTemplate (k + 1) (s' :: ss')) =
          (s' :: ss').length - 1 := hih.2
        rw [e1, e2, e3]
        simp only [List.length_cons]
        omega

theorem plainLoop_shift (a b locName key : Str) (l : List Nat) :
    ∀ (out : List Nat),
    (∀ i ∈ l, strIndex (a ++ b) (placeholder i) =
      (strIndex b (placeholder i)).map (· + a.length)) →
    plainLoop b locName key l = .ok out →
    plainLoop (a ++ b) locName key l = .ok (out.map (· + a.length)) := by
  induction l with
  | nil =>
    intro out _ h
    injection h with h
    subst h
    rfl
  | cons i rest ih =>
    intro out hsh h
    simp only [plainLoop] at h ⊢
    cases hx : strIndex b (placeholder i) with
    | none =>
      rw [hx] at h
      exact Except.noConfusion h
    | some x =>
      rw [hx] at h
      cases hrest : plainLoop b locName key rest with
      | error e =>
        rw [hrest] at h
        exact Except.noConfusion h
      | ok out' =>
        rw [hrest] at h
        injection h with h
        subst h
        rw [hsh i (by simp), hx]
        simp only [Option.map_some']
        rw [ih out' (fun j hj => hsh j (by simp [hj])) hrest]
        simp only [List.map_cons]
        have harith : x + a.length + (placeholder i).length =
            x + (placeholder i).length + a.length := by omega
        rw [harith]

theorem plainLoop_mkTemplate (ss : List Str) : ∀ (k : Nat) (locName key : Str),
    segsBraceFree ss = true →
    plainLoop (mkTemplate k ss) locName key (List.range' k (ss.length - 1)) =
      .ok (phIdxs k ss) := by
  induction ss with
  | nil => intro k _ _ _; rfl
  | cons s ss ih =>
    intro k locName key hb
    obtain ⟨hs, hrest⟩ := segsBraceFree_cons s ss hb
    cases ss with
    | nil => rfl
    | cons s' ss' =>
      have hlen : (s :: s' :: ss').length - 1 = ((s' :: ss').length - 1) + 1 := by
        simp only [List.length_cons]
        omega
      rw [hlen, List.range'_succ]
      have hIH := ih (k + 1) locName key hrest
      -- shift the tail loop across the placeholder of k, then across s
      have hsk : ∀ i ∈ List.range' (k + 1) ((s' :: ss').length - 1),
          strIndex (placeholder k ++ mkTemplate (k + 1) (s' :: ss'))
            (placeholder i) =
          (strIndex (mkTemplate (k + 1) (s' :: ss')) (placeholder i)).map
            (· + (placeholder k).length) := by
        intro i hi
        have hik : i ≠ k := by
          have := List.mem_range'_1.mp hi
          omega
        exact strIndex_placeholder_skip k i (mkTemplate (k + 1) (s' :: ss')) hik
      have h1 := plainLoop_shift (placeholder k) (mkTemplate (k + 1) (s' :: ss'))
        locName key (List.range' (k + 1) ((s' :: ss').length - 1))
        (phIdxs (k + 1) (s' :: ss')) hsk hIH
      have hss : ∀ i ∈ List.range' (k + 1) ((s' :: ss').length - 1),
          strIndex (s ++ (placeholder k ++ mkTemplate (k + 1) (s' :: ss')))
            (placeholder i) =
          (strIndex (placeholder k ++ mkTemplate (k + 1) (s' :: ss'))
            (placeholder i)).map (· + s.length) := by
        intro i hi
        have hphi : placeholder i = '{' :: (natDigits i ++ ['}']) := rfl
        rw [hphi]
        exact strIndex_append_left s _ _ (fun c hc => (hs c hc).1)
      have h2 := plainLoop_shift s (placeholder k ++ mkTemplate (k + 1) (s' :: ss'))
        locName key (List.range' (k + 1) ((s' :: ss').length - 1))
        ((phIdxs (k + 1) (s' :: ss')).map (· + (placeholder k).length)) hss h1
      -- now assemble the head step
      show plainLoop (s ++ (placeholder k ++ mkTemplate (k + 1) (s' :: ss')))
        locName key (k :: List.range' (k + 1) ((s' :: ss').length - 1)) =
        .ok (phIdxs k (s :: s' :: ss'))
      simp only [plainLoop]
      have hhead : strIndex (s ++ (placeholder k ++ mkTemplate (k + 1) (s' :: ss')))
          (placeholder k) = some s.length := by
        have hphk : placeholder k = '{' :: (natDigits k ++ ['}']) := rfl
        rw [hphk, strIndex_append_left s _ _ (fun c hc => (hs c hc).1), ← hphk,
          strIndex_placeholder_self]
        simp
      rw [hhead, h2]
      show Except.ok (s.length :: (s.length + (placeholder k).length) ::
          ((phIdxs (k + 1) (s' :: ss')).map (· + (placeholder k).length)).map
            (· + s.length)) =
        Except.ok (ε := Err) (s.length :: (s.length + (placeholder k).length) ::
          (phIdxs (k + 1) (s' :: ss')).map
            (fun x => x + (s.length + (placeholder k).length)))
      rw [List.map_map]
      have hfun : ((fun x => x + s.length) ∘
          (fun x => x + (placeholder k).length)) =
          (fun x => x + (s.length + (placeholder k).length)) := by
        funext x
        simp only [Function.comp_apply]
        omega
      rw [hfun]

theorem slice_append_add (a b : Str) (x y : Nat) :
    slice (a ++ b) (a.length + x) (a.length + y) = slice b x y := by
  unfold slice
  rw [List.take_append, List.drop_append]

theorem spliceLoop_shift (a b : Str) :
    ∀ (idxs : List Nat) (st : Nat) (ps : List Str),
    spliceLoop (a ++ b) (a.length + st) (idxs.map (fun x => a.length + x)) ps =
      spliceLoop b st idxs ps
  | [], st, ps => by
    simp only [List.map_nil, spliceLoop, List.length_append]
    by_cases hc : st ≤ b.length
    · rw [if_pos (by omega), if_pos hc, List.drop_append]
    · rw [if_neg (by omega), if_neg hc]
  | [e], st, ps => by
    simp only [List.map_cons, List.map_nil, spliceLoop, List.length_append]
    by_cases hc : st ≤ e ∧ e ≤ b.length
    · rw [if_pos (by omega), if_pos hc]
    · rw [if_neg (by omega), if_neg hc]
  | e :: s2 :: rest, st, ps => by
    cases ps with
    | nil =>
      simp only [List.map_cons, spliceLoop, List.length_append]
      by_cases hc : st ≤ e ∧ e ≤ b.length
      · rw [if_pos (by omega), if_pos hc]
      · rw [if_neg (by omega), if_neg hc]
    | cons p ps' =>
      simp only [List.map_cons, spliceLoop, List.length_append]
      by_cases hc : st ≤ e ∧ e ≤ b.length
      · rw [if_pos (by omega), if_pos hc,
          spliceLoop_shift a b rest s2 ps']
        cases spliceLoop b s2 rest ps' with
        | ok out => rw [slice_append_add]
        | fail err => rfl
        | panicked pp => rfl
      · rw [if_neg (by omega), if_neg hc]

theorem spliceLoop_mkTemplate (ss : List Str) : ∀ (k : Nat) (ps : List Str),
    ss.length = ps.length + 1 → segsBraceFree ss = true →
    spliceLoop (mkTemplate k ss) 0 (phIdxs k ss) ps = .ok (mkFilled ss ps) := by
  induction ss with
  | nil => intro k ps hlen _; simp at hlen
  | cons s ss ih =>
    intro k ps hlen hb
    obtain ⟨hs, hrest⟩ := segsBraceFree_cons s ss hb
    cases ss with
    | nil =>
      have : ps = [] := by
        cases ps with
        | nil => rfl
        | cons p ps' => simp at hlen
      subst this
      show spliceLoop s 0 [] [] = .ok s
      simp [spliceLoop]
    | cons s' ss' =>
      cases ps with
      | nil => simp at hlen
      | cons p ps' =>
        have hlen' : (s' :: ss').length = ps'.length + 1 := by
          simp only [List.length_cons] at hlen ⊢
          omega
        show spliceLoop (s ++ (placeholder k ++ mkTemplate (k + 1) (s' :: ss'))) 0
          (s.length :: (s.length + (placeholder k).length) ::
            (phIdxs (k + 1) (s' :: ss')).map
              (fun x => x + (s.length + (placeholder k).length))) (p :: ps') =
          .ok (s ++ p ++ mkFilled (s' :: ss') ps')
        simp only [spliceLoop]
        rw [if_pos ⟨Nat.zero_le _, by simp [List.length_append]⟩]
        have hassoc : s ++ (placeholder k ++ mkTemplate (k + 1) (s' :: ss')) =
            (s ++ placeholder k) ++ mkTemplate (k + 1) (s' :: ss') := by
          rw [List.append_assoc]
        have hstart : s.length + (placeholder k).length =
            (s ++ placeholder k).length + 0 := by
          simp [List.length_append]
        have hmapf : (phIdxs (k + 1) (s' :: ss')).map
            (fun x => x + (s.length + (placeholder k).length)) =
            (phIdxs (k + 1) (s' :: ss')).map
              (fun x => (s ++ placeholder k).length + x) := by
          apply List.map_congr_left
          intro x _
          simp [List.length_append]
          omega
        rw [hassoc, hmapf, hstart, spliceLoop_shift (s ++ placeholder k)
          (mkTemplate (k + 1) (s' :: ss')) (phIdxs (k + 1) (s' :: ss')) 0 ps']
        rw [ih (k + 1) ps' hlen' hrest]
        have hslice : slice ((s ++ placeholder k) ++ mkTemplate (k + 1) (s' :: ss'))
            0 s.length = s := by
          unfold slice
          rw [List.drop_zero, List.append_assoc, List.take_left]
        rw [hslice]

/-! ### Claim C1 -/

/-- C1 counterexample: a template whose placeholders appear out of numeric
order is stored successfully, but T then panics on an invalid slice instead
of returning the substituted text; and a template with a repeated index can
never be stored at all (Add rejects it with BadParamSyntax), so the claim's
"any order of appearance, possibly with a repeated index" does not hold. -/
theorem c1_counterexample :
    ((newTranslator locSimple).Add (.str "k".data) outOfOrderText false).2 = none ∧
    ((newTranslator locSimple).Add (.str "k".data) outOfOrderText false).1.T
      (.str "k".data) ["x".data, "y".data] = .panicked .sliceBounds ∧
    ((newTranslator locSimple).Add (.str "k".data)
        ['{', '0', '}', 'a', '{', '0', '}'] false).2 =
      some (.badParamSyntax "en".data (placeholder 1) "k".data
        ['{', '0', '}', 'a', '{', '0', '}']) := by
  decide

/-- C1 (amended): for every plain template whose placeholders appear in
increasing numeric order, each exactly once — i.e. brace-free segments
interleaved with the placeholders of 0..N-1 in that order — a successful
Add followed by T with N parameters returns the template text with each
placeholder replaced by the corresponding positional parameter and every
non-placeholder byte preserved exactly. -/
theorem c1_plain_render (t : Translator) (key : Str) (ss ps : List Str) (ov : Bool)
    (hb : segsBraceFree ss = true) (hlen : ss.length = ps.length + 1)
    (hpass : alLookup t.translations (.str key) = none ∨ ov = true) :
    (t.Add (.str key) (mkTemplate 0 ss) ov).2 = none ∧
    (t.Add (.str key) (mkTemplate 0 ss) ov).1.T (.str key) ps =
      .ok (mkFilled ss ps) := by
  have hcnt := mkTemplate_count ss 0 hb
  have hloop := plainLoop_mkTemplate ss 0 t.loc.name key hb
  have hAdd := Add_success t key (mkTemplate 0 ss) ov (phIdxs 0 ss) hpass
    (by rw [hcnt.1, hcnt.2])
    (by rw [hcnt.1, List.range_eq_range']; exact hloop)
  rw [hAdd]
  refine ⟨rfl, ?_⟩
  simp only [Translator.T, alLookup_alInsert_self]
  exact spliceLoop_mkTemplate ss 0 ps hlen hb

/-- C1 witness: rendering the template of segments Hello-comma-space and
bang with the parameter World. -/
theorem c1_plain_render_witness :
    segsBraceFree ["Hello, ".data, "!".data] = true ∧
    ((newTranslator locSimple).Add (.str "k".data)
        (mkTemplate 0 ["Hello, ".data, "!".data]) false).2 = none ∧
    ((newTranslator locSimple).Add (.str "k".data)
        (mkTemplate 0 ["Hello, ".data, "!".data]) false).1.T (.str "k".data)
      ["World".data] = .ok (mkFilled ["Hello, ".data, "!".data] ["World".data]) :=
  have h := c1_plain_render (newTranslator locSimple) "k".data
    ["Hello, ".data, "!".data] ["World".data] false (by decide) (by decide)
    (Or.inl (by decide))
  ⟨by decide, h.1, h.2⟩

/-! ### More association-list lemmas (claim C2) -/

theorem alInsert_absent {K V : Type} [DecidableEq K] (m : List (K × V)) (k : K)
    (v : V) (h : alLookup m k = none) : alInsert m k v = m ++ [(k, v)] := by
  induction m with
  | nil => rfl
  | cons p rest ih =>
    obtain ⟨k', v'⟩ := p
    simp only [alLookup] at h
    by_cases hk : k' = k
    · rw [if_pos hk] at h
      exact Option.noConfusion h
    · rw [if_neg hk] at h
      simp only [alInsert, if_neg hk, List.cons_append]
      rw [ih h]

theorem alLookup_append_none {K V : Type} [DecidableEq K] (a b : List (K × V))
    (k : K) (h : alLookup a k = none) :
    alLookup (a ++ b) k = alLookup b k := by
  induction a with
  | nil => rfl
  | cons p rest ih =>
    obtain ⟨k', v'⟩ := p
    simp only [alLookup] at h
    by_cases hk : k' = k
    · rw [if_pos hk] at h
      exact Option.noConfusion h
    · rw [if_neg hk] at h
      simp only [List.cons_append, alLookup, if_neg hk]
      exact ih h

theorem alInsert_alInsert {K V : Type} [DecidableEq K] (m : List (K × V)) (k : K)
    (v w : V) : alInsert (alInsert m k v) k w = alInsert m k w := by
  induction m with
  | nil => simp [alInsert]
  | cons p rest ih =>
    obtain ⟨k', v'⟩ := p
    by_cases hk : k' = k
    · simp [alInsert, hk]
    · simp only [alInsert, if_neg hk]
      rw [ih]

theorem alInsert_lookup_eq {K V : Type} [DecidableEq K] (m : List (K × V)) (k : K)
    (v : V) (h : alLookup m k = some v) : alInsert m k v = m := by
  induction m with
  | nil => exact Option.noConfusion h
  | cons p rest ih =>
    obtain ⟨k', v'⟩ := p
    simp only [alLookup] at h
    by_cases hk : k' = k
    · rw [if_pos hk] at h
      injection h with h
      simp [alInsert, hk, ← h]
    · rw [if_neg hk] at h
      simp only [alInsert, if_neg hk]
      rw [ih h]

theorem alLookup_maprecs_none {V W : Type} (m : List (GoValue × V))
    (f : GoValue × V → W) (s : Str) (hk : strKeysB m = true)
    (h : alLookup m (GoValue.str s) = none) :
    alLookup (m.map (fun p => (keyStr p.1, f p))) s = none := by
  induction m with
  | nil => rfl
  | cons p rest ih =>
    obtain ⟨k, v⟩ := p
    simp only [strKeysB, List.all_cons, Bool.and_eq_true] at hk
    cases k with
    | nonString tag => simp at hk
    | str s' =>
      simp only [alLookup] at h
      by_cases hs : s' = s
      · rw [if_pos (by rw [hs])] at h
        exact Option.noConfusion h
      · rw [if_neg (by simp [hs])] at h
        simp only [List.map_cons, alLookup, keyStr, if_neg hs]
        exact ih hk.2 h

/-! ### Export record lemmas (claim C2) -/

set_option maxHeartbeats 2000000 in
theorem exportSlots_spec (l rt : Str) (arr : Slots)
    (hu : arr .unknown = none)
    (hpop : (sixRules.any fun r => (arr r).isSome) = true) :
    exportSlots l rt arr emptyTranslation =
      { locale := l, overrideExisting := false, ruleType := rt,
        zero := fieldOf arr .zero, one := fieldOf arr .one,
        two := fieldOf arr .two, few := fieldOf arr .few,
        many := fieldOf arr .many, other := fieldOf arr .other } := by
  have hpop' : (arr .zero).isSome = true ∨ (arr .one).isSome = true ∨
      (arr .two).isSome = true ∨ (arr .few).isSome = true ∨
      (arr .many).isSome = true ∨ (arr .other).isSome = true := by
    simpa [sixRules] using hpop
  simp only [exportSlots, ruleOrder, List.foldl_cons, List.foldl_nil, hu]
  cases hz : arr .zero <;> cases h1 : arr .one <;> cases h2 : arr .two <;>
    cases h3 : arr .few <;> cases h4 : arr .many <;> cases h5 : arr .other <;>
    rw [hz, h1, h2, h3, h4, h5] at hpop' <;>
    simp [setRuleField, fieldOf, hz, h1, h2, h3, h4, h5, emptyTranslation] at hpop' ⊢

theorem mem_alLookup_ne_none {K V : Type} [DecidableEq K] (m : List (K × V))
    (k : K) (v : V) (hm : (k, v) ∈ m) : alLookup m k ≠ none := by
  induction m with
  | nil => simp at hm
  | cons p rest ih =>
    obtain ⟨k', v'⟩ := p
    simp only [alLookup]
    by_cases hk : k' = k
    · rw [if_pos hk]
      simp
    · rw [if_neg hk]
      rcases List.mem_cons.mp hm with h | h
      · exact absurd (congrArg Prod.fst h).symm hk
      · exact ih h

theorem strKeysB_key {V : Type} (m : List (GoValue × V)) (hk : strKeysB m = true)
    (q : GoValue × V) (hq : q ∈ m) : q.1 = GoValue.str (keyStr q.1) := by
  have := List.all_eq_true.mp hk q hq
  obtain ⟨k, v⟩ := q
  cases k with
  | str s => rfl
  | nonString tag => simp at this

theorem exportPlain_spec (l : Str) (m : List (GoValue × TransText)) :
    ∀ ts : Translations, strKeysB m = true → keysNodupB m = true →
    (∀ p ∈ m, alLookup ts (keyStr p.1) = none) →
    exportPlain l m ts = .ok (ts ++ plainRecsOf l m) := by
  induction m with
  | nil =>
    intro ts _ _ _
    simp [exportPlain, plainRecsOf]
  | cons p rest ih =>
    intro ts hk hn habs
    obtain ⟨k, v⟩ := p
    simp only [strKeysB, List.all_cons, Bool.and_eq_true] at hk
    cases k with
    | nonString tag => simp at hk
    | str s =>
      simp only [keysNodupB, Bool.and_eq_true, Option.isNone_iff_eq_none] at hn
      have habs0 : alLookup ts s = none := habs (GoValue.str s, v) (by simp)
      have hkeyS : keyStr (GoValue.str s) = s := rfl
      simp only [exportPlain, getRecord, habs0, setRecord]
      rw [alInsert_absent ts s _ habs0]
      have habs' : ∀ q ∈ rest, alLookup (ts ++
          [(s, { emptyTranslation with locale := l, other := v.text })])
          (keyStr q.1) = none := by
        intro q hq
        rw [alLookup_append_none _ _ _ (habs q (List.mem_cons_of_mem _ hq))]
        by_cases hs : s = keyStr q.1
        · exfalso
          have hqk := strKeysB_key rest hk.2 q hq
          have hmem : (GoValue.str s, q.2) ∈ rest := by
            rw [hs, ← hqk]
            exact hq
          exact (mem_alLookup_ne_none rest (GoValue.str s) q.2 hmem) hn.1
        · simp [alLookup, hs]
      refine (ih (ts ++ [(s, _)]) hk.2 hn.2 habs').trans ?_
      simp [plainRecsOf, keyStr, List.append_assoc]

theorem exportPlurals_spec (l rt : Str) (m : List (GoValue × Slots)) :
    ∀ ts : Translations, strKeysB m = true → keysNodupB m = true →
    (∀ p ∈ m, alLookup ts (keyStr p.1) = none) →
    exportPlurals l rt m ts = .ok (ts ++ pluralRecsOf l rt m) := by
  induction m with
  | nil =>
    intro ts _ _ _
    simp [exportPlurals, pluralRecsOf]
  | cons p rest ih =>
    intro ts hk hn habs
    obtain ⟨k, arr⟩ := p
    simp only [strKeysB, List.all_cons, Bool.and_eq_true] at hk
    cases k with
    | nonString tag => simp at hk
    | str s =>
      simp only [keysNodupB, Bool.and_eq_true, Option.isNone_iff_eq_none] at hn
      have habs0 : alLookup ts s = none := habs (GoValue.str s, arr) (by simp)
      simp only [exportPlurals, getRecord, habs0, setRecord]
      rw [alInsert_absent ts s _ habs0]
      have habs' : ∀ q ∈ rest, alLookup (ts ++
          [(s, exportSlots l rt arr emptyTranslation)]) (keyStr q.1) = none := by
        intro q hq
        rw [alLookup_append_none _ _ _ (habs q (List.mem_cons_of_mem _ hq))]
        by_cases hs : s = keyStr q.1
        · exfalso
          have hqk := strKeysB_key rest hk.2 q hq
          have hmem : (GoValue.str s, q.2) ∈ rest := by
            rw [hs, ← hqk]
            exact hq
          exact (mem_alLookup_ne_none rest (GoValue.str s) q.2 hmem) hn.1
        · simp [alLookup, hs]
      refine (ih (ts ++ [(s, _)]) hk.2 hn.2 habs').trans ?_
      simp [pluralRecsOf, keyStr, List.append_assoc]

theorem wfPlainB_strKeys (loc : Locale) (m : List (GoValue × TransText))
    (h : wfPlainB loc m = true) : strKeysB m = true := by
  simp only [wfPlainB, List.all_eq_true] at h
  simp only [strKeysB, List.all_eq_true]
  intro p hp
  obtain ⟨k, v⟩ := p
  have := h (k, v) hp
  cases k with
  | nonString tag => simp at this
  | str s => simp

theorem wfPluralMapB_strKeys (rules : List PluralRule) (n2 : Bool)
    (m : List (GoValue × Slots)) (h : wfPluralMapB rules n2 m = true) :
    strKeysB m = true := by
  simp only [wfPluralMapB, List.all_eq_true, Bool.and_eq_true] at h
  simp only [strKeysB, List.all_eq_true]
  intro p hp
  exact (h p hp).1

theorem wfPlainB_entry (loc : Locale) (m : List (GoValue × TransText))
    (h : wfPlainB loc m = true) (s : Str) (v : TransText)
    (hm : (GoValue.str s, v) ∈ m) :
    countChar v.text '{' = countChar v.text '}' ∧
    plainLoop v.text loc.name s (List.range (countChar v.text '{')) =
      .ok v.indexes := by
  have hall := List.all_eq_true.mp h _ hm
  simp only [Bool.and_eq_true, beq_iff_eq] at hall
  refine ⟨hall.1, ?_⟩
  have h2 := hall.2
  cases hp : plainLoop v.text loc.name s (List.range (countChar v.text '{')) with
  | error e =>
    rw [hp] at h2
    simp at h2
  | ok idxs =>
    rw [hp] at h2
    have h2' : idxs = v.indexes := by simpa using h2
    exact congrArg Except.ok h2'

theorem wfPluralMapB_entry (rules : List PluralRule) (n2 : Bool)
    (m : List (GoValue × Slots)) (h : wfPluralMapB rules n2 m = true)
    (s : Str) (arr : Slots) (hm : (GoValue.str s, arr) ∈ m) :
    wfSlotB rules n2 arr = true := by
  simp only [wfPluralMapB, List.all_eq_true, Bool.and_eq_true] at h
  exact (h _ hm).2

theorem wfSlotB_parts (rules : List PluralRule) (n2 : Bool) (arr : Slots)
    (h : wfSlotB rules n2 arr = true) :
    arr .unknown = none ∧ (sixRules.any fun r => (arr r).isSome) = true ∧
    (∀ r ∈ sixRules, ∀ e, arr r = some e → r ∈ rules ∧
      (n2 = false → ∃ i, strIndex e.text paramZero = some i ∧
        e.indexes = [i, i + paramZero.length]) ∧
      (n2 = true → ∃ i j, strIndex e.text paramZero = some i ∧
        strIndex e.text paramOne = some j ∧
        e.indexes = [i, i + paramZero.length, j, j + paramOne.length])) := by
  simp only [wfSlotB, Bool.and_eq_true, Option.isNone_iff_eq_none] at h
  refine ⟨h.1.1, h.1.2, ?_⟩
  intro r hr e he
  have hall := List.all_eq_true.mp h.2 r hr
  rw [he] at hall
  simp only [Bool.and_eq_true, decide_eq_true_eq] at hall
  refine ⟨hall.1, ?_, ?_⟩
  · intro hn2
    subst hn2
    have h2 := hall.2
    cases hz : strIndex e.text paramZero with
    | none =>
      rw [hz] at h2
      simp at h2
    | some i =>
      rw [hz] at h2
      have h2' : e.indexes = [i, i + paramZero.length] := by simpa using h2
      exact ⟨i, rfl, h2'⟩
  · intro hn2
    subst hn2
    have h2 := hall.2
    cases hz : strIndex e.text paramZero with
    | none =>
      rw [hz] at h2
      simp at h2
    | some i =>
      rw [hz] at h2
      cases ho : strIndex e.text paramOne with
      | none =>
        rw [ho] at h2
        simp at h2
      | some j =>
        rw [ho] at h2
        have h2' : e.indexes =
            [i, i + paramZero.length, j, j + paramOne.length] := by
          simpa using h2
        exact ⟨i, j, rfl, rfl, h2'⟩

theorem wfPluralMapB_slot (rules : List PluralRule) (n2 : Bool)
    (m : List (GoValue × Slots)) (h : wfPluralMapB rules n2 m = true) :
    ∀ p ∈ m, wfSlotB rules n2 p.2 = true := by
  simp only [wfPluralMapB, List.all_eq_true, Bool.and_eq_true] at h
  exact fun p hp => (h p hp).2

theorem strIndex_nil_paramZero : strIndex [] paramZero = none := by decide

theorem strIndex_nil_paramOne : strIndex [] paramOne = none := by decide

theorem slotsMergeO_getD (arr : Slots) :
    ∀ (rs : List PluralRule) (cur : Option Slots) (r : PluralRule),
    ((slotsMergeO arr rs cur).getD Slots.empty) r =
      if r ∈ rs ∧ (arr r).isSome = true then arr r
      else (cur.getD Slots.empty) r := by
  intro rs
  induction rs with
  | nil =>
    intro cur r
    simp [slotsMergeO]
  | cons r' rs ih =>
    intro cur r
    cases ha : arr r' with
    | none =>
      simp only [slotsMergeO, ha]
      rw [ih]
      by_cases hr : r = r'
      · subst hr
        simp [ha]
      · simp [List.mem_cons, hr]
    | some e =>
      simp only [slotsMergeO, ha]
      rw [ih]
      by_cases hr : r = r'
      · subst hr
        by_cases hm : r ∈ rs
        · simp [hm, ha]
        · simp [hm, ha, Slots.set_self]
      · have hset : ((cur.getD Slots.empty).set r' (some e)) r =
            (cur.getD Slots.empty) r := Slots.set_ne _ _ _ _ hr
        simp [List.mem_cons, hr, hset]

theorem slotsMergeO_some (arr : Slots) :
    ∀ (rs : List PluralRule) (cur : Option Slots),
    ((rs.any fun r => (arr r).isSome) = true ∨ cur.isSome = true) →
    (slotsMergeO arr rs cur).isSome = true := by
  intro rs
  induction rs with
  | nil =>
    intro cur h
    rcases h with h | h
    · simp at h
    · exact h
  | cons r' rs ih =>
    intro cur h
    cases ha : arr r' with
    | none =>
      simp only [slotsMergeO, ha]
      apply ih
      rcases h with h | h
      · simp only [List.any_cons, Bool.or_eq_true] at h
        rcases h with h | h
        · rw [ha] at h
          simp at h
        · exact Or.inl h
      · exact Or.inr h
    | some e =>
      simp only [slotsMergeO, ha]
      exact ih _ (Or.inr rfl)

theorem slotsMergeO_full (arr : Slots) (hu : arr .unknown = none)
    (hpop : (sixRules.any fun r => (arr r).isSome) = true) :
    slotsMergeO arr sixRules none = some arr := by
  have hs := slotsMergeO_some arr sixRules none (Or.inl hpop)
  obtain ⟨s, hsome⟩ := Option.isSome_iff_exists.mp hs
  rw [hsome]
  congr 1
  funext r
  have hg := slotsMergeO_getD arr sixRules none r
  rw [hsome] at hg
  by_cases hm : r ∈ sixRules
  · by_cases hsm : (arr r).isSome = true
    · rw [show s r = ((some s).getD Slots.empty) r from rfl, hg,
        if_pos ⟨hm, hsm⟩]
    · have hnone : arr r = none := by
        cases hv : arr r
        · rfl
        · rw [hv] at hsm
          simp at hsm
      have hnc : ¬(r ∈ sixRules ∧ (arr r).isSome = true) := fun hc => hsm hc.2
      rw [show s r = ((some s).getD Slots.empty) r from rfl, hg, if_neg hnc,
        hnone]
      rfl
  · have hunk : r = .unknown := by
      cases r <;> simp [sixRules] at hm ⊢
    subst hunk
    have hnc : ¬(PluralRule.unknown ∈ sixRules ∧
        (arr PluralRule.unknown).isSome = true) := fun hc => hm hc.1
    rw [show s PluralRule.unknown =
      ((some s).getD Slots.empty) PluralRule.unknown from rfl, hg, if_neg hnc,
      hu]
    rfl

theorem exportRecords_spec (t : Translator) (h : storeOk t = true) :
    exportRecords t = .ok
      (plainRecsOf t.loc.name t.translations ++
       pluralRecsOf t.loc.name RuleTypeCardinal t.cardinalTanslations ++
       pluralRecsOf t.loc.name RuleTypeOrdinal t.ordinalTanslations ++
       pluralRecsOf t.loc.name RuleTypeRange t.rangeTanslations) := by
  simp only [storeOk, Bool.and_eq_true, and_assoc] at h
  obtain ⟨hwP, hwC, hwO, hwR, hnP, hnC, hnO, hnR,
    hdCP, hdOP, hdOC, hdRP, hdRC, hdRO, hs1, hs2, hs3⟩ := h
  have hkP := wfPlainB_strKeys t.loc t.translations hwP
  have hkC := wfPluralMapB_strKeys t.loc.pluralsCardinal false
    t.cardinalTanslations hwC
  have hkO := wfPluralMapB_strKeys t.loc.pluralsOrdinal false
    t.ordinalTanslations hwO
  have hkR := wfPluralMapB_strKeys t.loc.pluralsRange true t.rangeTanslations hwR
  have habsC : ∀ p ∈ t.cardinalTanslations,
      alLookup (plainRecsOf t.loc.name t.translations) (keyStr p.1) = none := by
    intro p hp
    have hd := List.all_eq_true.mp hdCP p hp
    have hps := strKeysB_key t.cardinalTanslations hkC p hp
    rw [hps] at hd
    simp only [Option.isNone_iff_eq_none] at hd
    exact alLookup_maprecs_none t.translations _ _ hkP hd
  have habsO : ∀ p ∈ t.ordinalTanslations,
      alLookup (plainRecsOf t.loc.name t.translations ++
        pluralRecsOf t.loc.name RuleTypeCardinal t.cardinalTanslations)
        (keyStr p.1) = none := by
    intro p hp
    have hdp := List.all_eq_true.mp hdOP p hp
    have hdc := List.all_eq_true.mp hdOC p hp
    have hps := strKeysB_key t.ordinalTanslations hkO p hp
    rw [hps] at hdp hdc
    simp only [Option.isNone_iff_eq_none] at hdp hdc
    simp only [plainRecsOf, pluralRecsOf]
    rw [alLookup_append_none _ _ _
      (alLookup_maprecs_none t.translations _ _ hkP hdp)]
    exact alLookup_maprecs_none t.cardinalTanslations _ _ hkC hdc
  have habsR : ∀ p ∈ t.rangeTanslations,
      alLookup (plainRecsOf t.loc.name t.translations ++
        pluralRecsOf t.loc.name RuleTypeCardinal t.cardinalTanslations ++
        pluralRecsOf t.loc.name RuleTypeOrdinal t.ordinalTanslations)
        (keyStr p.1) = none := by
    intro p hp
    have hdp := List.all_eq_true.mp hdRP p hp
    have hdc := List.all_eq_true.mp hdRC p hp
    have hdo := List.all_eq_true.mp hdRO p hp
    have hps := strKeysB_key t.rangeTanslations hkR p hp
    rw [hps] at hdp hdc hdo
    simp only [Option.isNone_iff_eq_none] at hdp hdc hdo
    simp only [plainRecsOf, pluralRecsOf]
    have e1 := alLookup_maprecs_none t.translations
      (fun p => ({ emptyTranslation with locale := t.loc.name, other := p.2.text } : Translation)) _ hkP hdp
    have e2 := alLookup_maprecs_none t.cardinalTanslations
      (fun p => exportSlots t.loc.name RuleTypeCardinal p.2 emptyTranslation)
      _ hkC hdc
    have e3 := alLookup_maprecs_none t.ordinalTanslations
      (fun p => exportSlots t.loc.name RuleTypeOrdinal p.2 emptyTranslation)
      _ hkO hdo
    have e12 : alLookup
        (List.map (fun p => (keyStr p.1,
          { emptyTranslation with locale := t.loc.name, other := p.2.text }))
          t.translations ++
         List.map (fun p => (keyStr p.1,
          exportSlots t.loc.name RuleTypeCardinal p.2 emptyTranslation))
          t.cardinalTanslations) (keyStr p.1) = none := by
      rw [alLookup_append_none _ _ _ e1]
      exact e2
    rw [alLookup_append_none _ _ _ e12]
    exact e3
  simp only [exportRecords,
    exportPlain_spec t.loc.name t.translations [] hkP hnP (fun p _ => rfl),
    List.nil_append]
  simp only [exportPlurals_spec t.loc.name RuleTypeCardinal t.cardinalTanslations
    (plainRecsOf t.loc.name t.translations) hkC hnC habsC]
  simp only [exportPlurals_spec t.loc.name RuleTypeOrdinal t.ordinalTanslations
    (plainRecsOf t.loc.name t.translations ++
      pluralRecsOf t.loc.name RuleTypeCardinal t.cardinalTanslations)
    hkO hnO habsO]
  simp only [exportPlurals_spec t.loc.name RuleTypeRange t.rangeTanslations
    (plainRecsOf t.loc.name t.translations ++
      pluralRecsOf t.loc.name RuleTypeCardinal t.cardinalTanslations ++
      pluralRecsOf t.loc.name RuleTypeOrdinal t.ordinalTanslations)
    hkR hnR habsR]

theorem addFields_cardinal (t0 : Translator) (key : Str) (ov : Bool) (arr : Slots)
    (h0 : alLookup t0.cardinalTanslations (GoValue.str key) = none) :
    ∀ rs : List PluralRule, rs.Nodup →
    (∀ r ∈ rs, ∀ e, arr r = some e → r ∈ t0.loc.pluralsCardinal ∧
      ∃ i, strIndex e.text paramZero = some i ∧
        e.indexes = [i, i + paramZero.length]) →
    ∀ cur : Option Slots, (∀ r ∈ rs, (cur.getD Slots.empty) r = none) →
    addFieldsLoop .cardinal (.str key) ov (stateCard t0 key cur)
      (rs.map fun r => (fieldOf arr r, r)) =
    (stateCard t0 key (slotsMergeO arr rs cur), none) := by
  intro rs
  induction rs with
  | nil =>
    intro _ _ cur _
    simp [addFieldsLoop, slotsMergeO]
  | cons r rs ih =>
    intro hnd hp cur hc
    have hnd' : rs.Nodup := (List.nodup_cons.mp hnd).2
    have hrm : r ∉ rs := (List.nodup_cons.mp hnd).1
    have hp' : ∀ r' ∈ rs, ∀ e, arr r' = some e → r' ∈ t0.loc.pluralsCardinal ∧
        ∃ i, strIndex e.text paramZero = some i ∧
          e.indexes = [i, i + paramZero.length] :=
      fun r' hr' => hp r' (List.mem_cons_of_mem _ hr')
    cases ha : arr r with
    | none =>
      have hf : fieldOf arr r = [] := by simp [fieldOf, ha]
      simp only [List.map_cons, addFieldsLoop, hf]
      rw [if_pos trivial]
      rw [ih hnd' hp' cur (fun r' hr' => hc r' (List.mem_cons_of_mem _ hr'))]
      simp [slotsMergeO, ha]
    | some e =>
      obtain ⟨hrin, i, hsi, hidx⟩ := hp r (List.mem_cons_self _ _) e ha
      have hne : e.text ≠ [] := by
        intro hx
        rw [hx, strIndex_nil_paramZero] at hsi
        exact Option.noConfusion hsi
      have hf : fieldOf arr r = e.text := by simp [fieldOf, ha]
      have he : (⟨e.text, [i, i + paramZero.length]⟩ : TransText) = e := by
        rw [← hidx]
      have hstep : addByCat (stateCard t0 key cur) .cardinal (.str key)
          e.text r ov =
          (stateCard t0 key (some ((cur.getD Slots.empty).set r (some e))),
           none) := by
        cases cur with
        | none =>
          show Translator.AddCardinal t0 (.str key) e.text r ov = _
          simp only [Translator.AddCardinal]
          rw [if_pos hrin]
          simp only [h0, cardFinish, hsi, he]
          rfl
        | some s =>
          show Translator.AddCardinal { t0 with cardinalTanslations := alInsert t0.cardinalTanslations (GoValue.str key) s } (.str key) e.text r ov = _
          simp only [Translator.AddCardinal]
          rw [if_pos (show r ∈ ({ t0 with cardinalTanslations := alInsert t0.cardinalTanslations (GoValue.str key) s } : Translator).loc.pluralsCardinal from hrin)]
          simp only [alLookup_alInsert_self]
          have hsr : s r = none := hc r (List.mem_cons_self _ _)
          simp only [hsr, Option.isSome_none, Bool.false_and,
            Bool.false_eq_true, if_false]
          simp only [cardFinish, hsi, he]
          rw [alInsert_alInsert]
          rfl
      simp only [List.map_cons, addFieldsLoop, hf]
      rw [if_neg hne]
      simp only [hstep]
      have hc' : ∀ r' ∈ rs,
          (((some ((cur.getD Slots.empty).set r (some e))) :
            Option Slots).getD Slots.empty) r' = none := by
        intro r' hr'
        have hne' : r' ≠ r := fun hx => hrm (hx ▸ hr')
        show ((cur.getD Slots.empty).set r (some e)) r' = none
        rw [Slots.set_ne _ _ _ _ hne']
        exact hc r' (List.mem_cons_of_mem _ hr')
      rw [ih hnd' hp' _ hc']
      simp [slotsMergeO, ha]

theorem addFields_ordinal (t0 : Translator) (key : Str) (ov : Bool) (arr : Slots)
    (h0 : alLookup t0.ordinalTanslations (GoValue.str key) = none) :
    ∀ rs : List PluralRule, rs.Nodup →
    (∀ r ∈ rs, ∀ e, arr r = some e → r ∈ t0.loc.pluralsOrdinal ∧
      ∃ i, strIndex e.text paramZero = some i ∧
        e.indexes = [i, i + paramZero.length]) →
    ∀ cur : Option Slots, (∀ r ∈ rs, (cur.getD Slots.empty) r = none) →
    addFieldsLoop .ordinal (.str key) ov (stateOrd t0 key cur)
      (rs.map fun r => (fieldOf arr r, r)) =
    (stateOrd t0 key (slotsMergeO arr rs cur), none) := by
  intro rs
  induction rs with
  | nil =>
    intro _ _ cur _
    simp [addFieldsLoop, slotsMergeO]
  | cons r rs ih =>
    intro hnd hp cur hc
    have hnd' : rs.Nodup := (List.nodup_cons.mp hnd).2
    have hrm : r ∉ rs := (List.nodup_cons.mp hnd).1
    have hp' : ∀ r' ∈ rs, ∀ e, arr r' = some e → r' ∈ t0.loc.pluralsOrdinal ∧
        ∃ i, strIndex e.text paramZero = some i ∧
          e.indexes = [i, i + paramZero.length] :=
      fun r' hr' => hp r' (List.mem_cons_of_mem _ hr')
    cases ha : arr r with
    | none =>
      have hf : fieldOf arr r = [] := by simp [fieldOf, ha]
      simp only [List.map_cons, addFieldsLoop, hf]
      rw [if_pos trivial]
      rw [ih hnd' hp' cur (fun r' hr' => hc r' (List.mem_cons_of_mem _ hr'))]
      simp [slotsMergeO, ha]
    | some e =>
      obtain ⟨hrin, i, hsi, hidx⟩ := hp r (List.mem_cons_self _ _) e ha
      have hne : e.text ≠ [] := by
        intro hx
        rw [hx, strIndex_nil_paramZero] at hsi
        exact Option.noConfusion hsi
      have hf : fieldOf arr r = e.text := by simp [fieldOf, ha]
      have he : (⟨e.text, [i, i + paramZero.length]⟩ : TransText) = e := by
        rw [← hidx]
      have hstep : addByCat (stateOrd t0 key cur) .ordinal (.str key)
          e.text r ov =
          (stateOrd t0 key (some ((cur.getD Slots.empty).set r (some e))),
           none) := by
        cases cur with
        | none =>
          show Translator.AddOrdinal t0 (.str key) e.text r ov = _
          simp only [Translator.AddOrdinal]
          rw [if_pos hrin]
          simp only [h0, ordFinish, hsi, he]
          rfl
        | some s =>
          show Translator.AddOrdinal { t0 with ordinalTanslations := alInsert t0.ordinalTanslations (GoValue.str key) s } (.str key) e.text r ov = _
          simp only [Translator.AddOrdinal]
          rw [if_pos (show r ∈ ({ t0 with ordinalTanslations := alInsert t0.ordinalTanslations (GoValue.str key) s } : Translator).loc.pluralsOrdinal from hrin)]
          simp only [alLookup_alInsert_self]
          have hsr : s r = none := hc r (List.mem_cons_self _ _)
          simp only [hsr, Option.isSome_none, Bool.false_and,
            Bool.false_eq_true, if_false]
          simp only [ordFinish, hsi, he]
          rw [alInsert_alInsert]
          rfl
      simp only [List.map_cons, addFieldsLoop, hf]
      rw [if_neg hne]
      simp only [hstep]
      have hc' : ∀ r' ∈ rs,
          (((some ((cur.getD Slots.empty).set r (some e))) :
            Option Slots).getD Slots.empty) r' = none := by
        intro r' hr'
        have hne' : r' ≠ r := fun hx => hrm (hx ▸ hr')
        show ((cur.getD Slots.empty).set r (some e)) r' = none
        rw [Slots.set_ne _ _ _ _ hne']
        exact hc r' (List.mem_cons_of_mem _ hr')
      rw [ih hnd' hp' _ hc']
      simp [slotsMergeO, ha]

theorem addFields_range (t0 : Translator) (key : Str) (ov : Bool) (arr : Slots)
    (h0 : alLookup t0.rangeTanslations (GoValue.str key) = none) :
    ∀ rs : List PluralRule, rs.Nodup →
    (∀ r ∈ rs, ∀ e, arr r = some e → r ∈ t0.loc.pluralsRange ∧
      ∃ i j, strIndex e.text paramZero = some i ∧
        strIndex e.text paramOne = some j ∧
        e.indexes = [i, i + paramZero.length, j, j + paramOne.length]) →
    ∀ cur : Option Slots, (∀ r ∈ rs, (cur.getD Slots.empty) r = none) →
    addFieldsLoop .range (.str key) ov (stateRange t0 key cur)
      (rs.map fun r => (fieldOf arr r, r)) =
    (stateRange t0 key (slotsMergeO arr rs cur), none) := by
  intro rs
  induction rs with
  | nil =>
    intro _ _ cur _
    simp [addFieldsLoop, slotsMergeO]
  | cons r rs ih =>
    intro hnd hp cur hc
    have hnd' : rs.Nodup := (List.nodup_cons.mp hnd).2
    have hrm : r ∉ rs := (List.nodup_cons.mp hnd).1
    have hp' : ∀ r' ∈ rs, ∀ e, arr r' = some e → r' ∈ t0.loc.pluralsRange ∧
        ∃ i j, strIndex e.text paramZero = some i ∧
          strIndex e.text paramOne = some j ∧
          e.indexes = [i, i + paramZero.length, j, j + paramOne.length] :=
      fun r' hr' => hp r' (List.mem_cons_of_mem _ hr')
    cases ha : arr r with
    | none =>
      have hf : fieldOf arr r = [] := by simp [fieldOf, ha]
      simp only [List.map_cons, addFieldsLoop, hf]
      rw [if_pos trivial]
      rw [ih hnd' hp' cur (fun r' hr' => hc r' (List.mem_cons_of_mem _ hr'))]
      simp [slotsMergeO, ha]
    | some e =>
      obtain ⟨hrin, i, j, hsi, hsj, hidx⟩ := hp r (List.mem_cons_self _ _) e ha
      have hne : e.text ≠ [] := by
        intro hx
        rw [hx, strIndex_nil_paramZero] at hsi
        exact Option.noConfusion hsi
      have hf : fieldOf arr r = e.text := by simp [fieldOf, ha]
      have he : (⟨e.text,
          [i, i + paramZero.length, j, j + paramOne.length]⟩ : TransText) = e := by
        rw [← hidx]
      have hstep : addByCat (stateRange t0 key cur) .range (.str key)
          e.text r ov =
          (stateRange t0 key (some ((cur.getD Slots.empty).set r (some e))),
           none) := by
        cases cur with
        | none =>
          show Translator.AddRange t0 (.str key) e.text r ov = _
          simp only [Translator.AddRange]
          rw [if_pos hrin]
          simp only [h0, rangeFinish, hsi, hsj, he]
          rfl
        | some s =>
          show Translator.AddRange { t0 with rangeTanslations := alInsert t0.rangeTanslations (GoValue.str key) s } (.str key) e.text r ov = _
          simp only [Translator.AddRange]
          rw [if_pos (show r ∈ ({ t0 with rangeTanslations := alInsert t0.rangeTanslations (GoValue.str key) s } : Translator).loc.pluralsRange from hrin)]
          simp only [alLookup_alInsert_self]
          have hsr : s r = none := hc r (List.mem_cons_self _ _)
          simp only [hsr, Option.isSome_none, Bool.false_and,
            Bool.false_eq_true, if_false]
          simp only [rangeFinish, hsi, hsj, he]
          rw [alInsert_alInsert]
          rfl
      simp only [List.map_cons, addFieldsLoop, hf]
      rw [if_neg hne]
      simp only [hstep]
      have hc' : ∀ r' ∈ rs,
          (((some ((cur.getD Slots.empty).set r (some e))) :
            Option Slots).getD Slots.empty) r' = none := by
        intro r' hr'
        have hne' : r' ≠ r := fun hx => hrm (hx ▸ hr')
        show ((cur.getD Slots.empty).set r (some e)) r' = none
        rw [Slots.set_ne _ _ _ _ hne']
        exact hc r' (List.mem_cons_of_mem _ hr')
      rw [ih hnd' hp' _ hc']
      simp [slotsMergeO, ha]

theorem goToLower_nil : goToLower [] = [] := rfl

theorem goToLower_cardinal : goToLower RuleTypeCardinal = RuleTypeCardinal := by
  decide

theorem goToLower_ordinal : goToLower RuleTypeOrdinal = RuleTypeOrdinal := by
  decide

theorem goToLower_range : goToLower RuleTypeRange = RuleTypeRange := by
  decide

theorem plainRecsOf_cons (l : Str) (k : GoValue) (v : TransText)
    (m : List (GoValue × TransText)) :
    plainRecsOf l ((k, v) :: m) =
      (keyStr k, { emptyTranslation with locale := l, other := v.text }) ::
        plainRecsOf l m := rfl

theorem pluralRecsOf_cons (l rt : Str) (k : GoValue) (arr : Slots)
    (m : List (GoValue × Slots)) :
    pluralRecsOf l rt ((k, arr) :: m) =
      (keyStr k, exportSlots l rt arr emptyTranslation) ::
        pluralRecsOf l rt m := rfl

theorem importRecords_plainSeg (fb : Option Translator)
    (M : List (Str × Translator)) (l : Str) :
    ∀ (m : List (GoValue × TransText)) (tr : Translator) (rest : Translations),
    strKeysB m = true → keysNodupB m = true →
    wfPlainB tr.loc m = true →
    (∀ p ∈ m, alLookup tr.translations p.1 = none) →
    UniversalTranslator.importRecords ⟨alInsert M (goToLower l) tr, fb⟩
      (plainRecsOf l m ++ rest) =
    UniversalTranslator.importRecords
      ⟨alInsert M (goToLower l)
        { tr with translations := tr.translations ++ m }, fb⟩ rest := by
  intro m
  induction m with
  | nil =>
    intro tr rest _ _ _ _
    have hap : tr.translations ++ [] = tr.translations := List.append_nil _
    rw [show (plainRecsOf l [] ++ rest : Translations) = rest from rfl, hap]
  | cons p m ih =>
    intro tr rest hk hn hwf habs
    obtain ⟨k, v⟩ := p
    simp only [strKeysB, List.all_cons, Bool.and_eq_true] at hk
    cases k with
    | nonString tag => simp at hk
    | str s =>
      obtain ⟨hbr, hpl⟩ := wfPlainB_entry tr.loc ((GoValue.str s, v) :: m)
        hwf s v (List.mem_cons_self _ _)
      have habs0 : alLookup tr.translations (GoValue.str s) = none :=
        habs _ (List.mem_cons_self _ _)
      simp only [keysNodupB, Bool.and_eq_true, Option.isNone_iff_eq_none] at hn
      have hwf' : wfPlainB tr.loc m = true := by
        simp only [wfPlainB, List.all_cons, Bool.and_eq_true] at hwf
        exact hwf.2
      have happly : UniversalTranslator.applyRecord
          ⟨alInsert M (goToLower l) tr, fb⟩ s
          { emptyTranslation with locale := l, other := v.text } =
          (⟨alInsert M (goToLower l)
            { tr with translations := alInsert tr.translations (GoValue.str s) v }, fb⟩, none) := by
        simp only [UniversalTranslator.applyRecord, emptyTranslation,
          alLookup_alInsert_self, goToLower_nil]
        rw [if_pos (Or.inl trivial)]
        simp only [Add_success tr s v.text false v.indexes (Or.inl habs0)
          hbr hpl]
        rw [alInsert_alInsert]
      simp only [plainRecsOf_cons, keyStr, List.cons_append,
        UniversalTranslator.importRecords, happly]
      rw [alInsert_absent tr.translations (GoValue.str s) v habs0]
      have habs' : ∀ q ∈ m,
          alLookup (tr.translations ++ [(GoValue.str s, v)]) q.1 = none := by
        intro q hq
        rw [alLookup_append_none _ _ _ (habs q (List.mem_cons_of_mem _ hq))]
        by_cases hs : GoValue.str s = q.1
        · exfalso
          have hqk := strKeysB_key m hk.2 q hq
          have hmem : (GoValue.str s, q.2) ∈ m := by
            rw [hs]
            exact hq
          exact (mem_alLookup_ne_none m (GoValue.str s) q.2 hmem) hn.1
        · simp [alLookup, hs]
      refine Eq.trans (ih
        { tr with translations := tr.translations ++ [(GoValue.str s, v)] }
        rest hk.2 hn.2 hwf' habs') ?_
      rw [List.append_assoc]
      rfl

theorem cardNotPlain :
    ¬(RuleTypeCardinal = ([] : Str) ∨ RuleTypeCardinal = RuleTypePlain) := by
  decide

theorem ordNotPlain :
    ¬(RuleTypeOrdinal = ([] : Str) ∨ RuleTypeOrdinal = RuleTypePlain) := by
  decide

theorem ordNotCard : RuleTypeOrdinal ≠ RuleTypeCardinal := by decide

theorem rangeNotPlain :
    ¬(RuleTypeRange = ([] : Str) ∨ RuleTypeRange = RuleTypePlain) := by
  decide

theorem rangeNotCard : RuleTypeRange ≠ RuleTypeCardinal := by decide

theorem rangeNotOrd : RuleTypeRange ≠ RuleTypeOrdinal := by decide

theorem importRecords_cardinalSeg (fb : Option Translator)
    (M : List (Str × Translator)) (l : Str) :
    ∀ (m : List (GoValue × Slots)) (tr : Translator) (rest : Translations),
    strKeysB m = true → keysNodupB m = true →
    (∀ p ∈ m, wfSlotB tr.loc.pluralsCardinal false p.2 = true) →
    (∀ p ∈ m, alLookup tr.cardinalTanslations p.1 = none) →
    UniversalTranslator.importRecords ⟨alInsert M (goToLower l) tr, fb⟩
      (pluralRecsOf l RuleTypeCardinal m ++ rest) =
    UniversalTranslator.importRecords
      ⟨alInsert M (goToLower l)
        { tr with cardinalTanslations := tr.cardinalTanslations ++ m }, fb⟩ rest := by
  intro m
  induction m with
  | nil =>
    intro tr rest _ _ _ _
    have hap : tr.cardinalTanslations ++ [] = tr.cardinalTanslations := List.append_nil _
    rw [show (pluralRecsOf l RuleTypeCardinal [] ++ rest : Translations) = rest from rfl,
      hap]
  | cons p m ih =>
    intro tr rest hk hn hwf habs
    obtain ⟨k, arr⟩ := p
    simp only [strKeysB, List.all_cons, Bool.and_eq_true] at hk
    cases k with
    | nonString tag => simp at hk
    | str s =>
      simp only [keysNodupB, Bool.and_eq_true, Option.isNone_iff_eq_none] at hn
      have hws := hwf _ (List.mem_cons_self _ _)
      obtain ⟨hu, hpop, hparts⟩ := wfSlotB_parts _ _ _ hws
      have habs0 : alLookup tr.cardinalTanslations (GoValue.str s) = none :=
        habs _ (List.mem_cons_self _ _)
      have hrec := exportSlots_spec l RuleTypeCardinal arr hu hpop
      have hp6 : ∀ r ∈ sixRules, ∀ e, arr r = some e →
          r ∈ tr.loc.pluralsCardinal ∧ ∃ i, strIndex e.text paramZero = some i ∧
            e.indexes = [i, i + paramZero.length] := by
        intro r hr e hae
        obtain ⟨h1, h2, h3⟩ := hparts r hr e hae
        exact ⟨h1, h2 rfl⟩
      have hafl : addFieldsLoop .cardinal (GoValue.str s) false tr
          [(fieldOf arr .zero, .zero), (fieldOf arr .one, .one),
           (fieldOf arr .two, .two), (fieldOf arr .few, .few),
           (fieldOf arr .many, .many), (fieldOf arr .other, .other)] =
          ({ tr with cardinalTanslations := alInsert tr.cardinalTanslations (GoValue.str s) arr },
           none) := by
        have h1 := addFields_cardinal tr s false arr habs0 sixRules
          (by decide) hp6 none (fun r _ => rfl)
        rw [slotsMergeO_full arr hu hpop] at h1
        exact h1
      have happly : UniversalTranslator.applyRecord
          ⟨alInsert M (goToLower l) tr, fb⟩ s
          (exportSlots l RuleTypeCardinal arr emptyTranslation) =
          (⟨alInsert M (goToLower l)
            { tr with cardinalTanslations := alInsert tr.cardinalTanslations (GoValue.str s) arr }, fb⟩,
           none) := by
        rw [hrec]
        simp only [UniversalTranslator.applyRecord, alLookup_alInsert_self,
          goToLower_cardinal, fieldList]
        rw [if_neg cardNotPlain]
        rw [if_pos trivial]
        simp only [hafl]
        rw [alInsert_alInsert]
      simp only [pluralRecsOf_cons, keyStr, List.cons_append,
        UniversalTranslator.importRecords, happly]
      rw [alInsert_absent tr.cardinalTanslations (GoValue.str s) arr habs0]
      have habs2 : ∀ q ∈ m,
          alLookup (tr.cardinalTanslations ++ [(GoValue.str s, arr)]) q.1 = none := by
        intro q hq
        rw [alLookup_append_none _ _ _ (habs q (List.mem_cons_of_mem _ hq))]
        by_cases hs : GoValue.str s = q.1
        · exfalso
          have hmem : (GoValue.str s, q.2) ∈ m := by
            rw [hs]
            exact hq
          exact (mem_alLookup_ne_none m (GoValue.str s) q.2 hmem) hn.1
        · simp [alLookup, hs]
      refine Eq.trans (ih
        { tr with cardinalTanslations := tr.cardinalTanslations ++ [(GoValue.str s, arr)] }
        rest hk.2 hn.2 (fun q hq => hwf q (List.mem_cons_of_mem _ hq))
        habs2) ?_
      rw [List.append_assoc]
      rfl

theorem importRecords_ordinalSeg (fb : Option Translator)
    (M : List (Str × Translator)) (l : Str) :
    ∀ (m : List (GoValue × Slots)) (tr : Translator) (rest : Translations),
    strKeysB m = true → keysNodupB m = true →
    (∀ p ∈ m, wfSlotB tr.loc.pluralsOrdinal false p.2 = true) →
    (∀ p ∈ m, alLookup tr.ordinalTanslations p.1 = none) →
    UniversalTranslator.importRecords ⟨alInsert M (goToLower l) tr, fb⟩
      (pluralRecsOf l RuleTypeOrdinal m ++ rest) =
    UniversalTranslator.importRecords
      ⟨alInsert M (goToLower l)
        { tr with ordinalTanslations := tr.ordinalTanslations ++ m }, fb⟩ rest := by
  intro m
  induction m with
  | nil =>
    intro tr rest _ _ _ _
    have hap : tr.ordinalTanslations ++ [] = tr.ordinalTanslations := List.append_nil _
    rw [show (pluralRecsOf l RuleTypeOrdinal [] ++ rest : Translations) = rest from rfl,
      hap]
  | cons p m ih =>
    intro tr rest hk hn hwf habs
    obtain ⟨k, arr⟩ := p
    simp only [strKeysB, List.all_cons, Bool.and_eq_true] at hk
    cases k with
    | nonString tag => simp at hk
    | str s =>
      simp only [keysNodupB, Bool.and_eq_true, Option.isNone_iff_eq_none] at hn
      have hws := hwf _ (List.mem_cons_self _ _)
      obtain ⟨hu, hpop, hparts⟩ := wfSlotB_parts _ _ _ hws
      have habs0 : alLookup tr.ordinalTanslations (GoValue.str s) = none :=
        habs _ (List.mem_cons_self _ _)
      have hrec := exportSlots_spec l RuleTypeOrdinal arr hu hpop
      have hp6 : ∀ r ∈ sixRules, ∀ e, arr r = some e →
          r ∈ tr.loc.pluralsOrdinal ∧ ∃ i, strIndex e.text paramZero = some i ∧
            e.indexes = [i, i + paramZero.length] := by
        intro r hr e hae
        obtain ⟨h1, h2, h3⟩ := hparts r hr e hae
        exact ⟨h1, h2 rfl⟩
      have hafl : addFieldsLoop .ordinal (GoValue.str s) false tr
          [(fieldOf arr .zero, .zero), (fieldOf arr .one, .one),
           (fieldOf arr .two, .two), (fieldOf arr .few, .few),
           (fieldOf arr .many, .many), (fieldOf arr .other, .other)] =
          ({ tr with ordinalTanslations := alInsert tr.ordinalTanslations (GoValue.str s) arr },
           none) := by
        have h1 := addFields_ordinal tr s false arr habs0 sixRules
          (by decide) hp6 none (fun r _ => rfl)
        rw [slotsMergeO_full arr hu hpop] at h1
        exact h1
      have happly : UniversalTranslator.applyRecord
          ⟨alInsert M (goToLower l) tr, fb⟩ s
          (exportSlots l RuleTypeOrdinal arr emptyTranslation) =
          (⟨alInsert M (goToLower l)
            { tr with ordinalTanslations := alInsert tr.ordinalTanslations (GoValue.str s) arr }, fb⟩,
           none) := by
        rw [hrec]
        simp only [UniversalTranslator.applyRecord, alLookup_alInsert_self,
          goToLower_ordinal, fieldList]
        rw [if_neg ordNotPlain]
        rw [if_neg ordNotCard]
        rw [if_pos trivial]
        simp only [hafl]
        rw [alInsert_alInsert]
      simp only [pluralRecsOf_cons, keyStr, List.cons_append,
        UniversalTranslator.importRecords, happly]
      rw [alInsert_absent tr.ordinalTanslations (GoValue.str s) arr habs0]
      have habs2 : ∀ q ∈ m,
          alLookup (tr.ordinalTanslations ++ [(GoValue.str s, arr)]) q.1 = none := by
        intro q hq
        rw [alLookup_append_none _ _ _ (habs q (List.mem_cons_of_mem _ hq))]
        by_cases hs : GoValue.str s = q.1
        · exfalso
          have hmem : (GoValue.str s, q.2) ∈ m := by
            rw [hs]
            exact hq
          exact (mem_alLookup_ne_none m (GoValue.str s) q.2 hmem) hn.1
        · simp [alLookup, hs]
      refine Eq.trans (ih
        { tr with ordinalTanslations := tr.ordinalTanslations ++ [(GoValue.str s, arr)] }
        rest hk.2 hn.2 (fun q hq => hwf q (List.mem_cons_of_mem _ hq))
        habs2) ?_
      rw [List.append_assoc]
      rfl

theorem importRecords_rangeSeg (fb : Option Translator)
    (M : List (Str × Translator)) (l : Str) :
    ∀ (m : List (GoValue × Slots)) (tr : Translator) (rest : Translations),
    strKeysB m = true → keysNodupB m = true →
    (∀ p ∈ m, wfSlotB tr.loc.pluralsRange true p.2 = true) →
    (∀ p ∈ m, alLookup tr.rangeTanslations p.1 = none) →
    UniversalTranslator.importRecords ⟨alInsert M (goToLower l) tr, fb⟩
      (pluralRecsOf l RuleTypeRange m ++ rest) =
    UniversalTranslator.importRecords
      ⟨alInsert M (goToLower l)
        { tr with rangeTanslations := tr.rangeTanslations ++ m }, fb⟩ rest := by
  intro m
  induction m with
  | nil =>
    intro tr rest _ _ _ _
    have hap : tr.rangeTanslations ++ [] = tr.rangeTanslations := List.append_nil _
    rw [show (pluralRecsOf l RuleTypeRange [] ++ rest : Translations) = rest from rfl,
      hap]
  | cons p m ih =>
    intro tr rest hk hn hwf habs
    obtain ⟨k, arr⟩ := p
    simp only [strKeysB, List.all_cons, Bool.and_eq_true] at hk
    cases k with
    | nonString tag => simp at hk
    | str s =>
      simp only [keysNodupB, Bool.and_eq_true, Option.isNone_iff_eq_none] at hn
      have hws := hwf _ (List.mem_cons_self _ _)
      obtain ⟨hu, hpop, hparts⟩ := wfSlotB_parts _ _ _ hws
      have habs0 : alLookup tr.rangeTanslations (GoValue.str s) = none :=
        habs _ (List.mem_cons_self _ _)
      have hrec := exportSlots_spec l RuleTypeRange arr hu hpop
      have hp6 : ∀ r ∈ sixRules, ∀ e, arr r = some e →
          r ∈ tr.loc.pluralsRange ∧ ∃ i j, strIndex e.text paramZero = some i ∧
            strIndex e.text paramOne = some j ∧
            e.indexes = [i, i + paramZero.length, j, j + paramOne.length] := by
        intro r hr e hae
        obtain ⟨h1, h2, h3⟩ := hparts r hr e hae
        exact ⟨h1, h3 rfl⟩
      have hafl : addFieldsLoop .range (GoValue.str s) false tr
          [(fieldOf arr .zero, .zero), (fieldOf arr .one, .one),
           (fieldOf arr .two, .two), (fieldOf arr .few, .few),
           (fieldOf arr .many, .many), (fieldOf arr .other, .other)] =
          ({ tr with rangeTanslations := alInsert tr.rangeTanslations (GoValue.str s) arr },
           none) := by
        have h1 := addFields_range tr s false arr habs0 sixRules
          (by decide) hp6 none (fun r _ => rfl)
        rw [slotsMergeO_full arr hu hpop] at h1
        exact h1
      have happly : UniversalTranslator.applyRecord
          ⟨alInsert M (goToLower l) tr, fb⟩ s
          (exportSlots l RuleTypeRange arr emptyTranslation) =
          (⟨alInsert M (goToLower l)
            { tr with rangeTanslations := alInsert tr.rangeTanslations (GoValue.str s) arr }, fb⟩,
           none) := by
        rw [hrec]
        simp only [UniversalTranslator.applyRecord, alLookup_alInsert_self,
          goToLower_range, fieldList]
        rw [if_neg rangeNotPlain]
        rw [if_neg rangeNotCard]
        rw [if_neg rangeNotOrd]
        rw [if_pos trivial]
        simp only [hafl]
        rw [alInsert_alInsert]
      simp only [pluralRecsOf_cons, keyStr, List.cons_append,
        UniversalTranslator.importRecords, happly]
      rw [alInsert_absent tr.rangeTanslations (GoValue.str s) arr habs0]
      have habs2 : ∀ q ∈ m,
          alLookup (tr.rangeTanslations ++ [(GoValue.str s, arr)]) q.1 = none := by
        intro q hq
        rw [alLookup_append_none _ _ _ (habs q (List.mem_cons_of_mem _ hq))]
        by_cases hs : GoValue.str s = q.1
        · exfalso
          have hmem : (GoValue.str s, q.2) ∈ m := by
            rw [hs]
            exact hq
          exact (mem_alLookup_ne_none m (GoValue.str s) q.2 hmem) hn.1
        · simp [alLookup, hs]
      refine Eq.trans (ih
        { tr with rangeTanslations := tr.rangeTanslations ++ [(GoValue.str s, arr)] }
        rest hk.2 hn.2 (fun q hq => hwf q (List.mem_cons_of_mem _ hq))
        habs2) ?_
      rw [List.append_assoc]
      rfl

/-- C2 (corrected): round trip.  For a store satisfying the reachable-state
    invariant together with the side conditions that no key is stored in
    more than one category and the locale's rule lists contain only the six
    named rules, exporting and re-importing into a fresh registry for the
    same locale succeeds, reproduces the translator exactly, verification
    still passes, and every render call returns identical output. -/
theorem c2_roundtrip (t : Translator) (h : storeOk t = true)
    (hv : t.VerifyTranslations = none) :
    ∃ recs : Translations, ∃ ut' : UniversalTranslator,
      exportRecords t = .ok recs ∧
      (NewUniversalTranslator t.loc [t.loc]).importRecords recs = (ut', none) ∧
      ∃ t₂ : Translator,
        alLookup ut'.translators (goToLower t.loc.name) = some t₂ ∧
        t₂.VerifyTranslations = none ∧
        (∀ k ps, t₂.T k ps = t.T k ps) ∧
        (∀ k n d p, t₂.C k n d p = t.C k n d p) ∧
        (∀ k n d p, t₂.O k n d p = t.O k n d p) ∧
        (∀ k n1 d1 n2 d2 p1 p2,
          t₂.R k n1 d1 n2 d2 p1 p2 = t.R k n1 d1 n2 d2 p1 p2) := by
  have hrec := exportRecords_spec t h
  simp only [storeOk, Bool.and_eq_true, and_assoc] at h
  obtain ⟨hwP, hwC, hwO, hwR, hnP, hnC, hnO, hnR, hdCP, hdOP, hdOC, hdRP,
    hdRC, hdRO, hs1, hs2, hs3⟩ := h
  have h1 := importRecords_plainSeg
    (NewUniversalTranslator t.loc [t.loc]).fallback [] t.loc.name
    t.translations (newTranslator t.loc)
    (pluralRecsOf t.loc.name RuleTypeCardinal t.cardinalTanslations ++
     (pluralRecsOf t.loc.name RuleTypeOrdinal t.ordinalTanslations ++
      pluralRecsOf t.loc.name RuleTypeRange t.rangeTanslations))
    (wfPlainB_strKeys t.loc t.translations hwP) hnP hwP (fun p _ => rfl)
  have h2 := importRecords_cardinalSeg
    (NewUniversalTranslator t.loc [t.loc]).fallback [] t.loc.name
    t.cardinalTanslations
    ⟨t.loc, t.translations, [], [], []⟩
    (pluralRecsOf t.loc.name RuleTypeOrdinal t.ordinalTanslations ++
     pluralRecsOf t.loc.name RuleTypeRange t.rangeTanslations)
    (wfPluralMapB_strKeys t.loc.pluralsCardinal false t.cardinalTanslations hwC)
    hnC (wfPluralMapB_slot t.loc.pluralsCardinal false t.cardinalTanslations hwC)
    (fun p _ => rfl)
  have h3 := importRecords_ordinalSeg
    (NewUniversalTranslator t.loc [t.loc]).fallback [] t.loc.name
    t.ordinalTanslations
    ⟨t.loc, t.translations, t.cardinalTanslations, [], []⟩
    (pluralRecsOf t.loc.name RuleTypeRange t.rangeTanslations)
    (wfPluralMapB_strKeys t.loc.pluralsOrdinal false t.ordinalTanslations hwO)
    hnO (wfPluralMapB_slot t.loc.pluralsOrdinal false t.ordinalTanslations hwO)
    (fun p _ => rfl)
  have h4 := importRecords_rangeSeg
    (NewUniversalTranslator t.loc [t.loc]).fallback [] t.loc.name
    t.rangeTanslations
    ⟨t.loc, t.translations, t.cardinalTanslations, t.ordinalTanslations, []⟩
    []
    (wfPluralMapB_strKeys t.loc.pluralsRange true t.rangeTanslations hwR)
    hnR (wfPluralMapB_slot t.loc.pluralsRange true t.rangeTanslations hwR)
    (fun p _ => rfl)
  rw [List.append_nil] at h4
  have himport : (NewUniversalTranslator t.loc [t.loc]).importRecords
      (plainRecsOf t.loc.name t.translations ++
       pluralRecsOf t.loc.name RuleTypeCardinal t.cardinalTanslations ++
       pluralRecsOf t.loc.name RuleTypeOrdinal t.ordinalTanslations ++
       pluralRecsOf t.loc.name RuleTypeRange t.rangeTanslations) =
      (⟨alInsert [] (goToLower t.loc.name) t,
        (NewUniversalTranslator t.loc [t.loc]).fallback⟩, none) := by
    rw [List.append_assoc, List.append_assoc]
    exact ((h1.trans (h2.trans (h3.trans h4))).trans rfl)
  refine ⟨_, _, hrec, himport, t, ?_, hv, fun k ps => rfl,
    fun k n d p => rfl, fun k n d p => rfl,
    fun k n1 d1 n2 d2 p1 p2 => rfl⟩
  exact alLookup_alInsert_self [] (goToLower t.loc.name) t

/-- C2 counterexample: a store holding the key k both as a plain entry and
    as a fully populated cardinal entry passes verification, exports and
    re-imports without error, yet the re-imported store no longer renders
    the plain translation of k: the export merges the plain text and the
    plural forms into one record per key, and the re-import files the merged
    record under the plural rule type only. -/
theorem c2_counterexample :
    c2exTrans.VerifyTranslations = none ∧
    exportRecords c2exTrans = .ok c2exRecs ∧
    c2exImport.2 = none ∧
    c2exTrans.T (.str "k".data) [] = .ok "hello".data ∧
    c2exAfter.T (.str "k".data) [] =
      .fail (.unknownTranslation "k".data) := by
  decide

/-- Witness for c2_roundtrip: a concrete store with plain, cardinal,
    ordinal and range entries at four distinct keys round-trips exactly. -/
theorem c2_roundtrip_witness :
    storeOk c2wit = true ∧ c2wit.VerifyTranslations = none ∧
    (∃ recs : Translations, ∃ ut' : UniversalTranslator,
      exportRecords c2wit = .ok recs ∧
      (NewUniversalTranslator c2wit.loc [c2wit.loc]).importRecords recs =
        (ut', none) ∧
      ∃ t₂ : Translator,
        alLookup ut'.translators (goToLower c2wit.loc.name) = some t₂ ∧
        t₂.VerifyTranslations = none ∧
        (∀ k ps, t₂.T k ps = c2wit.T k ps) ∧
        (∀ k n d p, t₂.C k n d p = c2wit.C k n d p) ∧
        (∀ k n d p, t₂.O k n d p = c2wit.O k n d p) ∧
        (∀ k n1 d1 n2 d2 p1 p2,
          t₂.R k n1 d1 n2 d2 p1 p2 = c2wit.R k n1 d1 n2 d2 p1 p2)) :=
  ⟨by decide, by decide, c2_roundtrip c2wit (by decide) (by decide)⟩

end I18n
